import Mathlib

/-!
Verification of the GHOSTDAG demo blockchain (`src/blockchain.rs`).

This file shallowly embeds the data model and the operations of the
`BlockDAG` engine: GHOSTDAG ordering (`ghostdag_sort`,
`update_ghostdag_ordering`), blue/red classification
(`is_blue_candidate`, `get_anticone`, `get_ancestors`,
`get_descendants`), block insertion (`add_block`) and the ledger
executor (`execute_transaction`, `execute_blue_chain`,
`revert_transaction`, `revert_block`).

Modelling conventions:
* `HashMap`s keyed by a string are modelled as lists looked up by that
  key (`blocks` is a `List Block` keyed by the `hash` field, which in
  the source is always the map key; accounts are keyed by `address`).
  `insert` replaces the entry when the key is present and appends it
  otherwise.  `HashSet`s of strings are modelled as duplicate-free
  lists built by insert-if-absent.
* Balances, nonces and timestamps (`u64` in the source) are modelled
  as `Nat`; `saturating_sub` is `Nat` subtraction, which saturates.
  The `usize` in-degree counters of the topological sort are modelled
  with explicit wrap-around modulo `2 ^ 64`, because the source
  decrements them unconditionally.
* Methods taking `&mut self` and returning `Result` are modelled as
  functions returning the updated state together with an optional
  error, so that partial mutation before an error is visible.
* The Rust `BinaryHeap` of `(parent_count, Reverse(timestamp), hash)`
  triples pops a greatest element; it is modelled as a list from which
  the greatest element under that order is removed.  Error messages
  reproduce the source text (the quote marks the source puts around
  interpolated names are omitted).
-/

/-- Transaction status (`TxStatus` in the source). -/
inductive TxStatus where
  | Pending : TxStatus
  | Executed : TxStatus
  | Failed : String → TxStatus
  | Reverted : TxStatus
deriving DecidableEq

/-- A transaction.  The source fields `from` and `to` are reserved words in
Lean and are rendered `from_` and `to_`. -/
structure Transaction where
  id : String
  from_ : String
  to_ : String
  amount : Nat
  nonce : Nat
  status : TxStatus
deriving DecidableEq

/-- Block color of the GHOSTDAG protocol. -/
inductive BlockColor where
  | Blue : BlockColor
  | Red : BlockColor
deriving DecidableEq

/-- A block of the DAG. -/
structure Block where
  hash : String
  parent_hashes : List String
  transactions : List Transaction
  timestamp : Nat
  height : Nat
  color : BlockColor
  weight : Nat
deriving DecidableEq

/-- `Block::new`: height 0, color Blue, weight 0. -/
def Block.mk' (hash : String) (parent_hashes : List String)
    (transactions : List Transaction) (timestamp : Nat) : Block :=
  { hash := hash, parent_hashes := parent_hashes, transactions := transactions,
    timestamp := timestamp, height := 0, color := .Blue, weight := 0 }

/-- `Block::genesis`. -/
def Block.genesis : Block :=
  { hash := "genesis", parent_hashes := [], transactions := [],
    timestamp := 0, height := 0, color := .Blue, weight := 1 }

/-- An account. -/
structure Account where
  address : String
  balance : Nat
  nonce : Nat
deriving DecidableEq

/-- `Account::new`. -/
def Account.mk' (address : String) (balance : Nat) : Account :=
  { address := address, balance := balance, nonce := 0 }

/-- The `BlockDAG` aggregate.  `blocks` is the block map keyed by the
`hash` field, `children_mapping` the child-adjacency map, `accounts` the
account map keyed by the `address` field. -/
structure BlockDAG where
  blocks : List Block
  children_mapping : List (String × List String)
  accounts : List Account
  k : Nat
deriving DecidableEq

/-- `self.blocks.get(h)`. -/
def lookup_block (d : BlockDAG) (h : String) : Option Block :=
  d.blocks.find? (fun b => b.hash == h)

/-- `self.accounts.get(a)` (on a plain account list). -/
def lookup_account (accs : List Account) (a : String) : Option Account :=
  accs.find? (fun x => x.address == a)

/-- `HashMap::insert` on the block map: replace the entry with the same
hash, or append. -/
def insert_block (l : List Block) (b : Block) : List Block :=
  if l.any (fun x => x.hash == b.hash) then
    l.map (fun x => if x.hash == b.hash then b else x)
  else l ++ [b]

/-- `HashMap::insert` on the account map. -/
def insert_account (l : List Account) (a : Account) : List Account :=
  if l.any (fun x => x.address == a.address) then
    l.map (fun x => if x.address == a.address then a else x)
  else l ++ [a]

/-- The children set recorded for `h` (`children_mapping.get(h)`,
with a missing entry read as the empty set, matching every use site). -/
def children_of (d : BlockDAG) (h : String) : List String :=
  (((d.children_mapping.find? (fun e => e.1 == h)).map (fun e => e.2)).getD [])

/-- `children_mapping.get_mut(p).insert(c)`: add `c` to the children set
of `p` (no-op when the entry for `p` is absent). -/
def child_insert (l : List (String × List String)) (p c : String) :
    List (String × List String) :=
  l.map (fun e => if e.1 == p then (e.1, if e.2.contains c then e.2 else e.2 ++ [c]) else e)

/-- `children_mapping.insert(h, HashSet::new())`: bind `h` to the empty
children set, replacing any previous entry. -/
def child_reset (l : List (String × List String)) (h : String) :
    List (String × List String) :=
  if l.any (fun e => e.1 == h) then
    l.map (fun e => if e.1 == h then (e.1, []) else e)
  else l ++ [(h, [])]

/-- `BlockDAG::new(k)`: genesis block plus its empty children set. -/
def BlockDAG.new (k : Nat) : BlockDAG :=
  { blocks := [Block.genesis], children_mapping := [("genesis", [])],
    accounts := [], k := k }

/-- `add_account`. -/
def add_account (d : BlockDAG) (address : String) (balance : Nat) : BlockDAG :=
  { d with accounts := insert_account d.accounts (Account.mk' address balance) }

/-- `get_account`. -/
def get_account (d : BlockDAG) (address : String) : Option Account :=
  lookup_account d.accounts address

/-- `get_block`. -/
def get_block (d : BlockDAG) (h : String) : Option Block :=
  lookup_block d h

/-- `get_all_blocks` (the values of the block map). -/
def get_all_blocks (d : BlockDAG) : List Block :=
  d.blocks

/-- The view of the block map that the GHOSTDAG sort reads: for each
present hash, the parent list and the timestamp. -/
abbrev Core := String → Option (List String × Nat)

/-- The core view of a DAG state. -/
def core_of (d : BlockDAG) : Core :=
  fun h => (lookup_block d h).map (fun b => (b.parent_hashes, b.timestamp))

/-- One BFS round: insert the unseen neighbours of `q` into the visited
set and remember them as newly enqueued. -/
def bfs_step (ns : List String) (acc : List String) : List String × List String :=
  ns.foldl (fun st p => if st.1.contains p then st else (st.1 ++ [p], st.2 ++ [p]))
    (acc, [])

/-- Breadth-first closure used by `get_ancestors` / `get_descendants`:
repeatedly dequeue a node and enqueue its not-yet-visited neighbours. -/
def bfs_go (nbrs : String → List String) : Nat → List String → List String → List String
  | 0, _, acc => acc
  | _ + 1, [], acc => acc
  | fuel + 1, q :: qs, acc =>
    let st := bfs_step (nbrs q) acc
    bfs_go nbrs fuel (qs ++ st.2) st.1

/-- Breadth-first closure of `h` under a neighbour function, seeded with
the direct neighbours of `h` (exactly the loop shape of the source). -/
def bfs_closure (nbrs : String → List String) (fuel : Nat) (h : String) : List String :=
  let ns := nbrs h
  bfs_go nbrs fuel ns (bfs_step ns []).1

/-- The parent-neighbour function of a core view (missing blocks have no
recorded parents, matching the `if let Some` of the source). -/
def parents_nbr (core : Core) : String → List String :=
  fun h => ((core h).map (fun e => e.1)).getD []

/-- `get_ancestors`: BFS closure over parent edges. -/
def get_ancestors (core : Core) (fuel : Nat) (h : String) : List String :=
  bfs_closure (parents_nbr core) fuel h

/-- `get_descendants`: BFS closure over child edges. -/
def get_descendants (childrenF : String → List String) (fuel : Nat) (h : String) :
    List String :=
  bfs_closure childrenF fuel h

/-- `get_anticone`: members of the reference set that are neither the
block itself nor its ancestors nor its descendants. -/
def get_anticone (core : Core) (childrenF : String → List String) (fa fd : Nat)
    (h : String) (reference_set : List String) : List String :=
  let ancestors := get_ancestors core fa h
  let descendants := get_descendants childrenF fd h
  reference_set.filter
    (fun x => !(x == h) && !(ancestors.contains x) && !(descendants.contains x))

/-- `is_blue_candidate`: a missing candidate is not blue; otherwise count
the members of its anticone (taken inside `blue_set`) that are in
`blue_set` and compare with `k`. -/
def is_blue_candidate (core : Core) (childrenF : String → List String)
    (k fa fd : Nat) (candidate : String) (blue_set : List String) : Bool :=
  match core candidate with
  | none => false
  | some _ =>
    let anticone := get_anticone core childrenF fa fd candidate blue_set
    Nat.ble ((anticone.filter (fun h => blue_set.contains h)).length) k

/-- A heap entry: `(parent_count, timestamp, hash)`; the source stores
`(parent_count, Reverse(timestamp), hash)` in a max-heap. -/
abbrev Entry := Nat × Nat × String

/-- Byte-wise (here: codepoint-wise) lexicographic order on strings, the
order `Ord` gives Rust strings. -/
def str_lt_chars : List Char → List Char → Bool
  | [], [] => false
  | [], _ :: _ => true
  | _ :: _, [] => false
  | a :: as, b :: bs =>
    if Nat.blt a.toNat b.toNat then true
    else if Nat.blt b.toNat a.toNat then false
    else str_lt_chars as bs

/-- Lexicographic order on strings. -/
def str_lt (a b : String) : Bool :=
  str_lt_chars a.data b.data

/-- The max-heap order on entries: larger parent count first, then
smaller timestamp (the `Reverse` wrapper), then larger hash. -/
def entry_lt (a b : Entry) : Bool :=
  Nat.blt a.1 b.1 ||
    (a.1 == b.1 && (Nat.blt b.2.1 a.2.1 || (a.2.1 == b.2.1 && str_lt a.2.2 b.2.2)))

/-- Greatest entry of a nonempty collection under `entry_lt`. -/
def heap_max (e : Entry) (l : List Entry) : Entry :=
  l.foldl (fun m x => if entry_lt m x then x else m) e

/-- Remove the first occurrence of an entry. -/
def remove_entry : List Entry → Entry → List Entry
  | [], _ => []
  | x :: xs, e => if x == e then xs else x :: remove_entry xs e

/-- `BinaryHeap::pop`: extract a greatest entry. -/
def pop_max : List Entry → Option (Entry × List Entry)
  | [] => none
  | x :: xs =>
    let m := heap_max x xs
    some (m, remove_entry (x :: xs) m)

/-- Initial in-degrees: the parent count of every present block. -/
def init_deg (core : Core) : String → Nat :=
  fun h => match core h with
  | some (ps, _) => ps.length
  | none => 0

/-- Processing the children of a popped block: decrement each present
child's in-degree (with the wrap-around of the source's `usize`), and
push children whose in-degree reaches zero. -/
def child_pass (core : Core) (childrenF : String → List String) (current : String)
    (heap : List Entry) (deg : String → Nat) : List Entry × (String → Nat) :=
  (childrenF current).foldl
    (fun st child =>
      match core child with
      | none => st
      | some (ps, ts) =>
        let v := (st.2 child + (2 ^ 64 - 1)) % 2 ^ 64
        let deg' : String → Nat := fun x => if x == child then v else st.2 x
        if v == 0 then (st.1 ++ [(ps.length, ts, child)], deg') else (st.1, deg'))
    (heap, deg)

/-- The main loop of `ghostdag_sort`: pop the greatest ready entry,
classify it (genesis unconditionally blue), record blue blocks in pop
order, and release its children. -/
def ghostdag_go (core : Core) (childrenF : String → List String) (k fa fd : Nat) :
    Nat → List Entry → (String → Nat) → List String → List String → List String
  | 0, _, _, _, ordered => ordered
  | fuel + 1, heap, deg, blue_set, ordered =>
    match pop_max heap with
    | none => ordered
    | some (e, heap') =>
      let current := e.2.2
      let is_blue :=
        current == "genesis" ||
          is_blue_candidate core childrenF k fa fd current blue_set
      let blue_set' :=
        if is_blue then
          (if blue_set.contains current then blue_set else blue_set ++ [current])
        else blue_set
      let ordered' := if is_blue then ordered ++ [current] else ordered
      let st := child_pass core childrenF current heap' deg
      ghostdag_go core childrenF k fa fd fuel st.1 st.2 blue_set' ordered'

/-- Fuel that dominates every BFS the sort can run on `d`. -/
def bfs_fuel (d : BlockDAG) : Nat :=
  d.blocks.length + (d.blocks.map (fun b => b.parent_hashes.length)).sum
    + (d.children_mapping.map (fun e => e.2.length)).sum + 1

/-- `ghostdag_sort`: seed the heap with genesis and run the loop.  The
loop fuel `blocks.length + 1` covers every pop a well-formed state can
produce. -/
def ghostdag_sort (d : BlockDAG) : List String :=
  let core := core_of d
  let heap0 : List Entry :=
    match core "genesis" with
    | some (ps, ts) => [(ps.length, ts, "genesis")]
    | none => []
  ghostdag_go core (children_of d) d.k (bfs_fuel d) (bfs_fuel d)
    (d.blocks.length + 1) heap0 (init_deg core) [] []

/-- The weight-assignment pass of `update_ghostdag_ordering`: walk the
ordered list, recolouring each found block blue with the next weight. -/
def assign_weights (ordered : List String) (bs : List Block) (w : Nat) :
    List Block × Nat :=
  ordered.foldl
    (fun st h =>
      if st.1.any (fun b => b.hash == h) then
        (st.1.map (fun b => if b.hash == h then { b with color := .Blue, weight := st.2 + 1 } else b),
          st.2 + 1)
      else st)
    (bs, w)

/-- `update_ghostdag_ordering`: recompute the order, reset every block to
red with weight 0, then mark the ordered blocks blue with weights 1, 2, … -/
def update_ghostdag_ordering (d : BlockDAG) : BlockDAG :=
  let ordered := ghostdag_sort d
  let reset := d.blocks.map (fun b => { b with color := BlockColor.Red, weight := 0 })
  { d with blocks := (assign_weights ordered reset 0).1 }

/-- `add_block`: reject a block whose parent is missing (leaving the state
untouched); otherwise record the child links, insert the block with a
fresh empty children set, and re-run the GHOSTDAG ordering. -/
def add_block (d : BlockDAG) (b : Block) : BlockDAG × Option String :=
  match b.parent_hashes.find? (fun p => (lookup_block d p).isNone) with
  | some p => (d, some ("Parent block " ++ p ++ " does not exist"))
  | none =>
    let cm := b.parent_hashes.foldl (fun cm p => child_insert cm p b.hash)
      d.children_mapping
    let d1 : BlockDAG :=
      { d with blocks := insert_block d.blocks b,
               children_mapping := child_reset cm b.hash }
    (update_ghostdag_ordering d1, none)

/-- Stable insertion of a block into a weight-sorted list: the new block
goes after every block of smaller or equal weight. -/
def insort_weight (b : Block) : List Block → List Block
  | [] => [b]
  | x :: xs =>
    if Nat.ble x.weight b.weight then x :: insort_weight b xs else b :: x :: xs

/-- Stable sort by weight (the semantics of the source's stable
`sort_by_key`). -/
def sort_by_weight (l : List Block) : List Block :=
  l.foldl (fun acc b => insort_weight b acc) []

/-- `get_ordered_blue_blocks`: the blue blocks sorted by weight. -/
def get_ordered_blue_blocks (d : BlockDAG) : List Block :=
  sort_by_weight (d.blocks.filter (fun b => b.color == BlockColor.Blue))

/-- `TxStatus::to_string`. -/
def TxStatus.toMessage : TxStatus → String
  | .Pending => "Pending"
  | .Executed => "Executed"
  | .Failed reason => "Failed: " ++ reason
  | .Reverted => "Reverted"

/-- `execute_transaction`: checks sender existence, nonce and balance;
on success moves the amount, bumps the sender nonce and creates the
receiver account when absent.  Returns the updated accounts, the updated
transaction and the result. -/
def execute_transaction (accounts : List Account) (tx : Transaction) :
    List Account × Transaction × Option String :=
  match lookup_account accounts tx.from_ with
  | none => (accounts, tx, some ("Sender account " ++ tx.from_ ++ " does not exist"))
  | some sender =>
    if tx.nonce ≠ sender.nonce then
      let msg := "Invalid nonce: expected " ++ toString sender.nonce
        ++ ", got " ++ toString tx.nonce
      let tx' := { tx with status := TxStatus.Failed msg }
      (accounts, tx', some tx'.status.toMessage)
    else if sender.balance < tx.amount then
      let msg := "Insufficient balance: has " ++ toString sender.balance
        ++ ", needs " ++ toString tx.amount
      let tx' := { tx with status := TxStatus.Failed msg }
      (accounts, tx', some tx'.status.toMessage)
    else
      let accounts1 := accounts.map (fun a =>
        if a.address == tx.from_ then
          { a with balance := a.balance - tx.amount, nonce := a.nonce + 1 }
        else a)
      let accounts2 :=
        if accounts1.any (fun a => a.address == tx.to_) then
          accounts1.map (fun a =>
            if a.address == tx.to_ then { a with balance := a.balance + tx.amount } else a)
        else accounts1 ++ [Account.mk' tx.to_ tx.amount]
      (accounts2, { tx with status := TxStatus.Executed }, none)

/-- Execute a block's transaction list in order, collecting results
(the `for mut tx in transactions` loop of `execute_blue_chain`). -/
def execute_tx_list (accounts : List Account) :
    List Transaction → List Account × List Transaction
  | [] => (accounts, [])
  | tx :: txs =>
    let r := execute_transaction accounts tx
    let rest := execute_tx_list r.1 txs
    (rest.1, r.2.1 :: rest.2)

/-- `execute_blue_chain`: take the blue blocks in weight order, execute
each one's transactions, write the resulting statuses back into the
block, and report success unconditionally. -/
def execute_blue_chain (d : BlockDAG) : BlockDAG × Option String :=
  let block_hashes := (get_ordered_blue_blocks d).map (fun b => b.hash)
  let d' := block_hashes.foldl
    (fun st h =>
      match lookup_block st h with
      | none => st
      | some blk =>
        let r := execute_tx_list st.accounts blk.transactions
        { st with accounts := r.1,
                  blocks := st.blocks.map (fun b =>
                    if b.hash == h then { b with transactions := r.2 } else b) })
    d
  (d', none)

/-- `revert_transaction`: only an `Executed` transaction can be reverted;
the sender (if present) gets the amount back and its nonce decremented
with saturation; the receiver (if present) is debited only when its
balance suffices; the status becomes `Reverted`. -/
def revert_transaction (accounts : List Account) (tx : Transaction) :
    List Account × Transaction × Option String :=
  if tx.status ≠ TxStatus.Executed then
    (accounts, tx, some "Transaction was not executed")
  else
    let a1 := accounts.map (fun a =>
      if a.address == tx.from_ then
        { a with balance := a.balance + tx.amount, nonce := a.nonce - 1 }
      else a)
    let a2 := a1.map (fun a =>
      if a.address == tx.to_ then
        (if tx.amount ≤ a.balance then { a with balance := a.balance - tx.amount } else a)
      else a)
    (a2, { tx with status := TxStatus.Reverted }, none)

/-- The reverse-order revert loop of `revert_block`: revert each indexed
transaction, stopping at the first failure (whose account mutations up
to that point persist). -/
def revert_loop (accounts : List Account) :
    List (Nat × Transaction) → List Account × List (Nat × Transaction) × Option String
  | [] => (accounts, [], none)
  | (i, tx) :: rest =>
    let r := revert_transaction accounts tx
    match r.2.2 with
    | some e => (r.1, [], some e)
    | none =>
      let rec_ := revert_loop r.1 rest
      (rec_.1, (i, r.2.1) :: rec_.2.1, rec_.2.2)

/-- `revert_block`: fail when the block is absent; otherwise revert its
transactions last-first, and only on full success write the resulting
statuses back into the block. -/
def revert_block (d : BlockDAG) (block_hash : String) : BlockDAG × Option String :=
  match lookup_block d block_hash with
  | none => (d, some ("Block " ++ block_hash ++ " does not exist"))
  | some blk =>
    let transactions := blk.transactions
    let r := revert_loop d.accounts transactions.enum.reverse
    match r.2.2 with
    | some e => ({ d with accounts := r.1 }, some e)
    | none =>
      let newTxs := r.2.1.foldl (fun ts e => ts.set e.1 e.2) transactions
      ({ d with accounts := r.1,
                blocks := d.blocks.map (fun b =>
                  if b.hash == block_hash then { b with transactions := newTxs } else b) },
        none)

/-! ### Helper lemmas about the account map -/

theorem lookup_account_address {l : List Account} {x : String} {a : Account}
    (h : lookup_account l x = some a) : a.address = x := by
  have := List.find?_some h
  simpa using this

theorem lookup_account_map_update (l : List Account) (t : String)
    (f : Account → Account) (hf : ∀ a, (f a).address = a.address) (x : String) :
    lookup_account (l.map (fun a => if a.address == t then f a else a)) x
      = (lookup_account l x).map (fun a => if a.address == t then f a else a) := by
  unfold lookup_account
  rw [List.find?_map]
  have hp : ((fun b : Account => b.address == x)
      ∘ fun a => if a.address == t then f a else a) = (fun a : Account => a.address == x) := by
    funext a
    by_cases hat : a.address = t <;> simp [Function.comp, hat, hf]
  rw [hp]

theorem lookup_account_map_update_ne (l : List Account) (t : String)
    (f : Account → Account) (hf : ∀ a, (f a).address = a.address) (x : String)
    (hx : x ≠ t) :
    lookup_account (l.map (fun a => if a.address == t then f a else a)) x
      = lookup_account l x := by
  rw [lookup_account_map_update l t f hf x]
  cases h : lookup_account l x with
  | none => rfl
  | some a =>
    have ha := lookup_account_address h
    simp [ha, hx]

theorem lookup_account_append (l : List Account) (a : Account) (x : String) :
    lookup_account (l ++ [a]) x
      = (lookup_account l x).or (if a.address == x then some a else none) := by
  unfold lookup_account
  rw [List.find?_append]
  congr 1
  by_cases hax : a.address = x
  · have hb : (a.address == x) = true := by simp [hax]
    simp [List.find?, hb]
  · have hb : (a.address == x) = false := by simp [hax]
    simp [List.find?, hb]

theorem any_address_eq_isSome (l : List Account) (x : String) :
    l.any (fun a => a.address == x) = (lookup_account l x).isSome := by
  unfold lookup_account
  by_cases h : (l.find? (fun a => a.address == x)).isSome = true
  · rw [h]
    rw [List.find?_isSome] at h
    exact List.any_eq_true.mpr h
  · have h' := h
    rw [List.find?_isSome] at h'
    rw [Bool.not_eq_true] at h
    rw [h]
    rw [← Bool.not_eq_true]
    intro hc
    exact h' (List.any_eq_true.mp hc)

/-! ### execute_transaction case analysis (shared helper) -/

/-- Full case analysis of `execute_transaction`: the three failure modes
and the success shape, phrased through account lookups. -/
theorem execute_transaction_cases (accounts : List Account) (tx : Transaction) :
    (lookup_account accounts tx.from_ = none →
      execute_transaction accounts tx
        = (accounts, tx, some ("Sender account " ++ tx.from_ ++ " does not exist")))
  ∧ (∀ sender, lookup_account accounts tx.from_ = some sender → tx.nonce ≠ sender.nonce →
      ∃ reason, execute_transaction accounts tx
        = (accounts, { tx with status := TxStatus.Failed reason },
            some ("Failed: " ++ reason)))
  ∧ (∀ sender, lookup_account accounts tx.from_ = some sender → tx.nonce = sender.nonce →
      sender.balance < tx.amount →
      ∃ reason, execute_transaction accounts tx
        = (accounts, { tx with status := TxStatus.Failed reason },
            some ("Failed: " ++ reason)))
  ∧ (∀ sender, lookup_account accounts tx.from_ = some sender → tx.nonce = sender.nonce →
      tx.amount ≤ sender.balance →
      ∃ accounts', execute_transaction accounts tx
          = (accounts', { tx with status := TxStatus.Executed }, none)
        ∧ (tx.from_ ≠ tx.to_ →
            lookup_account accounts' tx.from_
              = some { sender with balance := sender.balance - tx.amount,
                                   nonce := sender.nonce + 1 })
        ∧ (∀ receiver, tx.from_ ≠ tx.to_ → lookup_account accounts tx.to_ = some receiver →
            lookup_account accounts' tx.to_
              = some { receiver with balance := receiver.balance + tx.amount })
        ∧ (lookup_account accounts tx.to_ = none →
            lookup_account accounts' tx.to_ = some (Account.mk' tx.to_ tx.amount))
        ∧ (tx.from_ = tx.to_ →
            lookup_account accounts' tx.from_ = some { sender with nonce := sender.nonce + 1 })
        ∧ (∀ x, x ≠ tx.from_ → x ≠ tx.to_ →
            lookup_account accounts' x = lookup_account accounts x)) := by
  refine ⟨?_, ?_, ?_, ?_⟩
  · intro h
    simp [execute_transaction, h]
  · intro sender hs hn
    refine ⟨"Invalid nonce: expected " ++ toString sender.nonce ++ ", got " ++ toString tx.nonce, ?_⟩
    simp [execute_transaction, hs, hn, TxStatus.toMessage]
  · intro sender hs hn hb
    have hn' : ¬ tx.nonce ≠ sender.nonce := by simp [hn]
    refine ⟨"Insufficient balance: has " ++ toString sender.balance ++ ", needs " ++ toString tx.amount, ?_⟩
    simp [execute_transaction, hs, hn', hb, TxStatus.toMessage]
  · intro sender hs hn hb
    have hsa : sender.address = tx.from_ := lookup_account_address hs
    have hn' : ¬ tx.nonce ≠ sender.nonce := by simp [hn]
    have hb' : ¬ sender.balance < tx.amount := Nat.not_lt.mpr hb
    have hfaddr : ∀ a : Account,
        (({ a with balance := a.balance - tx.amount, nonce := a.nonce + 1 } : Account)).address
          = a.address := fun a => rfl
    have htaddr : ∀ a : Account,
        (({ a with balance := a.balance + tx.amount } : Account)).address = a.address :=
      fun a => rfl
    set updF : Account → Account :=
      fun a => { a with balance := a.balance - tx.amount, nonce := a.nonce + 1 } with hUpdF
    set updT : Account → Account := fun a => { a with balance := a.balance + tx.amount } with hUpdT
    set accounts1 : List Account :=
      accounts.map (fun a => if a.address == tx.from_ then updF a else a) with hA1
    have hexec : execute_transaction accounts tx
        = (if accounts1.any (fun a => a.address == tx.to_) then
            accounts1.map (fun a => if a.address == tx.to_ then updT a else a)
           else accounts1 ++ [Account.mk' tx.to_ tx.amount],
           { tx with status := TxStatus.Executed }, none) := by
      simp only [execute_transaction, hs]
      rw [if_neg hn', if_neg hb']
    have hL1 : ∀ x, lookup_account accounts1 x
        = (lookup_account accounts x).map (fun a => if a.address == tx.from_ then updF a else a) :=
      fun x => lookup_account_map_update accounts tx.from_ updF hfaddr x
    have hAny : (accounts1.any (fun a => a.address == tx.to_))
        = (lookup_account accounts tx.to_).isSome := by
      rw [any_address_eq_isSome, hL1]
      cases lookup_account accounts tx.to_ <;> rfl
    cases hr : lookup_account accounts tx.to_ with
    | some receiver =>
      have hAnyT : (accounts1.any (fun a => a.address == tx.to_)) = true := by
        rw [hAny, hr]; rfl
      refine ⟨accounts1.map (fun a => if a.address == tx.to_ then updT a else a), ?_, ?_, ?_, ?_, ?_, ?_⟩
      · rw [hexec, if_pos hAnyT]
      · intro hne
        rw [lookup_account_map_update accounts1 tx.to_ updT htaddr tx.from_]
        rw [hL1, hs]
        simp [hsa, hne, hUpdF, hUpdT]
      · intro receiver' hne hr'
        injection hr' with hrr
        subst hrr
        have hra : receiver.address = tx.to_ := lookup_account_address hr
        have hnet : tx.to_ ≠ tx.from_ := Ne.symm hne
        rw [lookup_account_map_update accounts1 tx.to_ updT htaddr tx.to_]
        rw [hL1, hr]
        simp [hra, hnet, hUpdF, hUpdT]
      · intro hnone
        exact Option.noConfusion hnone
      · intro heq
        rw [lookup_account_map_update accounts1 tx.to_ updT htaddr tx.from_]
        rw [hL1, hs]
        simp [hsa, ← heq, hUpdF, hUpdT, Nat.sub_add_cancel hb]
      · intro x hxf hxt
        rw [lookup_account_map_update_ne accounts1 tx.to_ updT htaddr x hxt]
        exact lookup_account_map_update_ne accounts tx.from_ updF hfaddr x hxf
    | none =>
      have hAnyF : (accounts1.any (fun a => a.address == tx.to_)) = false := by
        rw [hAny, hr]; rfl
      have hne : tx.from_ ≠ tx.to_ := by
        intro hc
        rw [← hc, hs] at hr
        cases hr
      refine ⟨accounts1 ++ [Account.mk' tx.to_ tx.amount], ?_, ?_, ?_, ?_, ?_, ?_⟩
      · rw [hexec, if_neg (by rw [hAnyF]; exact Bool.false_ne_true)]
      · intro _
        rw [lookup_account_append]
        rw [hL1, hs]
        simp [hsa, hUpdF, Option.or]
      · intro receiver' _ hr'
        exact Option.noConfusion hr'
      · intro _
        rw [lookup_account_append]
        rw [hL1, hr]
        simp [Account.mk', Option.or]
      · intro heq
        exact absurd heq hne
      · intro x hxf hxt
        rw [lookup_account_append]
        rw [lookup_account_map_update_ne accounts tx.from_ updF hfaddr x hxf]
        have h2 : ((Account.mk' tx.to_ tx.amount).address == x) = false := by
          simp [Account.mk']
          intro hc
          exact hxt hc.symm
        rw [h2]
        cases lookup_account accounts x <;> rfl

/-! ### Helper lemmas about the block map -/

theorem lookup_block_hash {d : BlockDAG} {x : String} {b : Block}
    (h : lookup_block d x = some b) : b.hash = x := by
  have := List.find?_some h
  simpa using this

theorem find?_hash_map_update (l : List Block) (t : String)
    (f : Block → Block) (hf : ∀ b, (f b).hash = b.hash) (x : String) :
    (l.map (fun b => if b.hash == t then f b else b)).find? (fun b => b.hash == x)
      = (l.find? (fun b => b.hash == x)).map (fun b => if b.hash == t then f b else b) := by
  rw [List.find?_map]
  have hp : ((fun b : Block => b.hash == x)
      ∘ fun b => if b.hash == t then f b else b) = (fun b : Block => b.hash == x) := by
    funext b
    by_cases hbt : b.hash = t <;> simp [Function.comp, hbt, hf]
  rw [hp]

/-! ### C4: execute_transaction -/

/-- C4.  For every transaction and account map, `execute_transaction`
fails when the sender account does not exist; fails when the nonce
differs from the sender's current nonce, setting the status to `Failed`
with a descriptive reason and leaving all balances untouched; fails the
same way when the sender balance is below the amount; and on success
deducts the amount from the sender, increments the sender nonce by 1,
credits the receiver (creating the receiver account with that balance
when absent) and sets the status to `Executed`. -/
theorem claim_C4 (accounts : List Account) (tx : Transaction) :
    (lookup_account accounts tx.from_ = none →
      execute_transaction accounts tx
        = (accounts, tx, some ("Sender account " ++ tx.from_ ++ " does not exist")))
  ∧ (∀ sender, lookup_account accounts tx.from_ = some sender → tx.nonce ≠ sender.nonce →
      ∃ reason, execute_transaction accounts tx
        = (accounts, { tx with status := TxStatus.Failed reason },
            some ("Failed: " ++ reason)))
  ∧ (∀ sender, lookup_account accounts tx.from_ = some sender → tx.nonce = sender.nonce →
      sender.balance < tx.amount →
      ∃ reason, execute_transaction accounts tx
        = (accounts, { tx with status := TxStatus.Failed reason },
            some ("Failed: " ++ reason)))
  ∧ (∀ sender, lookup_account accounts tx.from_ = some sender → tx.nonce = sender.nonce →
      tx.amount ≤ sender.balance →
      ∃ accounts', execute_transaction accounts tx
          = (accounts', { tx with status := TxStatus.Executed }, none)
        ∧ (tx.from_ ≠ tx.to_ →
            lookup_account accounts' tx.from_
              = some { sender with balance := sender.balance - tx.amount,
                                   nonce := sender.nonce + 1 })
        ∧ (∀ receiver, tx.from_ ≠ tx.to_ → lookup_account accounts tx.to_ = some receiver →
            lookup_account accounts' tx.to_
              = some { receiver with balance := receiver.balance + tx.amount })
        ∧ (lookup_account accounts tx.to_ = none →
            lookup_account accounts' tx.to_ = some (Account.mk' tx.to_ tx.amount))
        ∧ (tx.from_ = tx.to_ →
            lookup_account accounts' tx.from_ = some { sender with nonce := sender.nonce + 1 })
        ∧ (∀ x, x ≠ tx.from_ → x ≠ tx.to_ →
            lookup_account accounts' x = lookup_account accounts x)) :=
  execute_transaction_cases accounts tx

/-- Witness for C4 at a concrete input (unknown sender). -/
theorem claim_C4_witness :
    execute_transaction [] (⟨"t", "alice", "bob", 5, 0, TxStatus.Pending⟩ : Transaction)
      = ([], (⟨"t", "alice", "bob", 5, 0, TxStatus.Pending⟩ : Transaction),
          some ("Sender account " ++ "alice" ++ " does not exist")) :=
  (claim_C4 [] _).1 rfl

/-! ### C5: error recovery in execute_blue_chain -/

/-- A transaction whose sender account does not exist. -/
def c5_tx : Transaction :=
  ⟨"t", "alice", "bob", 5, 0, TxStatus.Pending⟩

/-- A reachable state whose single non-genesis blue block carries
`c5_tx`, with an empty account map. -/
def c5_dag : BlockDAG :=
  (add_block (BlockDAG.new 1) ( Block.mk' "b1" ["genesis"] [c5_tx] 1)).1

/-- Counterexample to C5 as stated: in `c5_dag` the transaction fails
(unknown sender), `execute_blue_chain` reports success, but the
transaction is written back with status `Pending` — it is not marked
`Failed` in its block. -/
theorem claim_C5_counterexample :
    (execute_transaction c5_dag.accounts c5_tx).2.2
        = some ("Sender account " ++ "alice" ++ " does not exist")
  ∧ (execute_blue_chain c5_dag).2 = none
  ∧ ((lookup_block (execute_blue_chain c5_dag).1 "b1").map
        (fun b => b.transactions.map (fun t => t.status)) = some [TxStatus.Pending]) := by
  decide

/-- C5 (amended).  `execute_blue_chain` always reports success and
executes every transaction of every blue block in sequence, continuing
past failures; a transaction failing with a nonce mismatch or an
insufficient balance is marked `Failed` in its block, while one failing
because the sender account is unknown keeps its previous status
unchanged (it is not marked `Failed`). -/
theorem claim_C5 :
    (∀ d, (execute_blue_chain d).2 = none)
  ∧ (∀ accounts tx txs, execute_tx_list accounts (tx :: txs)
      = ((execute_tx_list (execute_transaction accounts tx).1 txs).1,
          (execute_transaction accounts tx).2.1
            :: (execute_tx_list (execute_transaction accounts tx).1 txs).2))
  ∧ (∀ accounts tx sender, lookup_account accounts tx.from_ = some sender →
      tx.nonce ≠ sender.nonce →
      ∃ reason, (execute_transaction accounts tx).2.1.status = TxStatus.Failed reason)
  ∧ (∀ accounts tx sender, lookup_account accounts tx.from_ = some sender →
      tx.nonce = sender.nonce → sender.balance < tx.amount →
      ∃ reason, (execute_transaction accounts tx).2.1.status = TxStatus.Failed reason)
  ∧ (∀ accounts tx, lookup_account accounts tx.from_ = none →
      (execute_transaction accounts tx).2.1 = tx) := by
  refine ⟨fun d => rfl, fun accounts tx txs => rfl, ?_, ?_, ?_⟩
  · intro accounts tx sender hs hn
    obtain ⟨reason, heq⟩ := (execute_transaction_cases accounts tx).2.1 sender hs hn
    exact ⟨reason, by rw [heq]⟩
  · intro accounts tx sender hs hn hb
    obtain ⟨reason, heq⟩ := (execute_transaction_cases accounts tx).2.2.1 sender hs hn hb
    exact ⟨reason, by rw [heq]⟩
  · intro accounts tx hnone
    rw [(execute_transaction_cases accounts tx).1 hnone]

/-- Witness for C5 at concrete inputs. -/
theorem claim_C5_witness :
    (execute_blue_chain (BlockDAG.new 0)).2 = none
  ∧ (execute_transaction [] c5_tx).2.1 = c5_tx :=
  ⟨claim_C5.1 (BlockDAG.new 0), claim_C5.2.2.2.2 [] c5_tx rfl⟩

/-! ### revert_transaction helpers -/

theorem revert_transaction_executed (accounts : List Account) (tx : Transaction)
    (h : tx.status = TxStatus.Executed) :
    revert_transaction accounts tx
      = ((accounts.map (fun a => if a.address == tx.from_ then
            { a with balance := a.balance + tx.amount, nonce := a.nonce - 1 } else a)).map
          (fun a => if a.address == tx.to_ then
            (if tx.amount ≤ a.balance then { a with balance := a.balance - tx.amount } else a)
          else a),
        { tx with status := TxStatus.Reverted }, none) := by
  have h' : ¬ tx.status ≠ TxStatus.Executed := by simp [h]
  simp only [revert_transaction]
  rw [if_neg h']

theorem revert_transaction_not_executed (accounts : List Account) (tx : Transaction)
    (h : tx.status ≠ TxStatus.Executed) :
    revert_transaction accounts tx = (accounts, tx, some "Transaction was not executed") := by
  simp only [revert_transaction]
  rw [if_pos h]

/-! ### C6: revert round trip for a single executed transaction -/

/-- C6.  For a block holding exactly one transaction that executed
successfully against `accounts` (sender and receiver both existing), and
whose state carries the post-execution account map, `revert_block`
succeeds, restores every account lookup — in particular the sender
balance, the receiver balance and the sender nonce — to its
pre-execution value, and sets the transaction's status to `Reverted`. -/
theorem claim_C6 (accounts : List Account) (tx : Transaction) (sender receiver : Account)
    (hfrom : lookup_account accounts tx.from_ = some sender)
    (hto : lookup_account accounts tx.to_ = some receiver)
    (hnonce : tx.nonce = sender.nonce) (hbal : tx.amount ≤ sender.balance)
    (d : BlockDAG) (h : String) (blk : Block)
    (hacc : d.accounts = (execute_transaction accounts tx).1)
    (hblk : lookup_block d h = some blk)
    (htxs : blk.transactions = [(execute_transaction accounts tx).2.1]) :
    (revert_block d h).2 = none
      ∧ (∀ x, lookup_account (revert_block d h).1.accounts x = lookup_account accounts x)
      ∧ ((lookup_block (revert_block d h).1 h).map
            (fun b => b.transactions.map (fun t => t.status)) = some [TxStatus.Reverted]) := by
  obtain ⟨A1, hexeq, hF, hR, _, hSelf, hOther⟩ :=
    (execute_transaction_cases accounts tx).2.2.2 sender hfrom hnonce hbal
  have hsa : sender.address = tx.from_ := lookup_account_address hfrom
  have hacc1 : d.accounts = A1 := by rw [hacc, hexeq]
  have htx1 : (execute_transaction accounts tx).2.1
      = { tx with status := TxStatus.Executed } := by rw [hexeq]
  set tx1 : Transaction := { tx with status := TxStatus.Executed } with hTx1
  rw [htx1] at htxs
  set updR : Account → Account :=
    fun a => { a with balance := a.balance + tx.amount, nonce := a.nonce - 1 } with hUpdR
  set updS : Account → Account :=
    fun a => if tx.amount ≤ a.balance then { a with balance := a.balance - tx.amount } else a
    with hUpdS
  have hRaddr : ∀ a : Account, (updR a).address = a.address := fun a => rfl
  have hSaddr : ∀ a : Account, (updS a).address = a.address := by
    intro a
    by_cases hc : tx.amount ≤ a.balance <;> simp [hUpdS, hc]
  have hrevtx : revert_transaction A1 tx1
      = ((A1.map (fun a => if a.address == tx.from_ then updR a else a)).map
          (fun a => if a.address == tx.to_ then updS a else a),
        { tx1 with status := TxStatus.Reverted }, none) :=
    revert_transaction_executed A1 tx1 rfl
  set A2 : List Account :=
    (A1.map (fun a => if a.address == tx.from_ then updR a else a)).map
      (fun a => if a.address == tx.to_ then updS a else a) with hA2
  have hloop : revert_loop A1 [(0, tx1)] = (A2, [(0, { tx1 with status := TxStatus.Reverted })], none) := by
    simp only [revert_loop, hrevtx]
  set blocksR : List Block := d.blocks.map (fun b =>
    if b.hash == h then
      { b with transactions := [{ tx1 with status := TxStatus.Reverted }] }
    else b) with hBlocksR
  have hrb : revert_block d h = ({ d with accounts := A2, blocks := blocksR }, none) := by
    simp only [revert_block, hblk, htxs, hacc1]
    simp only [List.enum_cons, List.enumFrom, List.reverse_cons, List.reverse_nil,
      List.nil_append, hloop]
    rfl
  have hA2lookup : ∀ x, lookup_account A2 x
      = ((lookup_account A1 x).map (fun a => if a.address == tx.from_ then updR a else a)).map
          (fun a => if a.address == tx.to_ then updS a else a) := by
    intro x
    rw [hA2, lookup_account_map_update _ tx.to_ updS hSaddr x,
      lookup_account_map_update _ tx.from_ updR hRaddr x]
  refine ⟨by rw [hrb], ?_, ?_⟩
  · intro x
    rw [hrb]
    show lookup_account A2 x = lookup_account accounts x
    rw [hA2lookup x]
    by_cases hxf : x = tx.from_
    · by_cases heq : tx.from_ = tx.to_
      · subst hxf
        rw [hSelf heq, hfrom]
        simp [hsa, heq, hUpdR, hUpdS, Nat.le_add_left, Nat.add_sub_cancel]
        rw [← heq, ← hsa]
      · subst hxf
        rw [hF heq, hfrom]
        simp [hsa, heq, hUpdR, hUpdS, Nat.sub_add_cancel hbal]
        rw [← hsa]
    · by_cases hxt : x = tx.to_
      · subst hxt
        have hne : tx.from_ ≠ tx.to_ := fun hc => hxf hc.symm
        have hra : receiver.address = tx.to_ := lookup_account_address hto
        rw [hR receiver hne hto, hto]
        simp [hra, hxf, hUpdS, hUpdR, Nat.le_add_left, Nat.add_sub_cancel]
        rw [← hra]
      · rw [hOther x hxf hxt]
        cases hlx : lookup_account accounts x with
        | none => simp
        | some a =>
          have haa := lookup_account_address hlx
          have h1 : a.address ≠ tx.from_ := by rw [haa]; exact hxf
          have h2 : a.address ≠ tx.to_ := by rw [haa]; exact hxt
          simp [h1, h2]
  · rw [hrb]
    have hlk : lookup_block { d with accounts := A2, blocks := blocksR } h
        = some { blk with transactions := [{ tx1 with status := TxStatus.Reverted }] } := by
      show blocksR.find? (fun b => b.hash == h) = _
      rw [hBlocksR]
      rw [find?_hash_map_update d.blocks h
        (fun b => { b with transactions := [{ tx1 with status := TxStatus.Reverted }] })
        (fun b => rfl) h]
      show (lookup_block d h).map _ = _
      rw [hblk]
      have hbp : blk.hash = h := lookup_block_hash hblk
      simp [hbp]
    show (lookup_block { d with accounts := A2, blocks := blocksR } h).map
        (fun b => b.transactions.map (fun t => t.status)) = some [TxStatus.Reverted]
    rw [hlk]
    rfl

/-- Accounts for the C6 witness. -/
def c6_accounts : List Account := [ Account.mk' "alice" 1000, Account.mk' "bob" 500]

/-- Transaction for the C6 witness. -/
def c6_tx : Transaction := ⟨"t1", "alice", "bob", 100, 0, TxStatus.Pending⟩

/-- Post-execution state for the C6 witness. -/
def c6_dag : BlockDAG :=
  { blocks := [Block.genesis,
      Block.mk' "b1" ["genesis"] [(execute_transaction c6_accounts c6_tx).2.1] 1],
    children_mapping := [("genesis", ["b1"]), ("b1", [])],
    accounts := (execute_transaction c6_accounts c6_tx).1, k := 1 }

/-- Witness for C6 at a concrete input. -/
theorem claim_C6_witness :
    (revert_block c6_dag "b1").2 = none
      ∧ (∀ x, lookup_account (revert_block c6_dag "b1").1.accounts x
          = lookup_account c6_accounts x)
      ∧ ((lookup_block (revert_block c6_dag "b1").1 "b1").map
            (fun b => b.transactions.map (fun t => t.status)) = some [TxStatus.Reverted]) :=
  claim_C6 c6_accounts c6_tx ( Account.mk' "alice" 1000) ( Account.mk' "bob" 500)
    (by decide) (by decide) rfl (by decide) c6_dag "b1"
    ( Block.mk' "b1" ["genesis"] [(execute_transaction c6_accounts c6_tx).2.1] 1)
    rfl (by decide) rfl

/-! ### C7: revert_block -/

theorem mem_enumFrom_snd {α : Type} :
    ∀ (l : List α) (n : Nat) (p : Nat × α), p ∈ List.enumFrom n l → p.2 ∈ l := by
  intro l
  induction l with
  | nil => intro n p hp; cases hp
  | cons a rest ih =>
    intro n p hp
    rw [List.enumFrom_cons] at hp
    rcases List.mem_cons.mp hp with h1 | h2
    · rw [h1]
      exact List.mem_cons_self _ _
    · exact List.mem_cons_of_mem _ (ih (n + 1) p h2)

theorem mem_enumFrom_succ {α : Type} :
    ∀ (l : List α) (n i : Nat) (a : α),
      (i, a) ∈ List.enumFrom n l → (i + 1, a) ∈ List.enumFrom (n + 1) l := by
  intro l
  induction l with
  | nil => intro n i a hp; cases hp
  | cons x rest ih =>
    intro n i a hp
    rw [List.enumFrom_cons] at hp
    rw [List.enumFrom_cons]
    rcases List.mem_cons.mp hp with h1 | h2
    · injection h1 with h1a h1b
      rw [h1a, h1b]
      exact List.mem_cons_self _ _
    · exact List.mem_cons_of_mem _ (ih (n + 1) i a h2)

theorem exists_mem_enum {α : Type} :
    ∀ (l : List α) (a : α), a ∈ l → ∃ i, (i, a) ∈ l.enum := by
  intro l
  induction l with
  | nil => intro a ha; cases ha
  | cons x rest ih =>
    intro a ha
    rcases List.mem_cons.mp ha with h1 | h2
    · exact ⟨0, by rw [List.enum_cons, h1]; exact List.mem_cons_self _ _⟩
    · obtain ⟨i, hi⟩ := ih a h2
      refine ⟨i + 1, ?_⟩
      rw [List.enum_cons]
      exact List.mem_cons_of_mem _ (mem_enumFrom_succ rest 0 i a hi)

theorem revert_loop_all (l : List (Nat × Transaction)) :
    ∀ accounts, (∀ p ∈ l, p.2.status = TxStatus.Executed) →
    revert_loop accounts l
      = (l.foldl (fun a p => (revert_transaction a p.2).1) accounts,
         l.map (fun p => (p.1, { p.2 with status := TxStatus.Reverted })), none) := by
  induction l with
  | nil => intro accounts _; rfl
  | cons p rest ih =>
    intro accounts hall
    obtain ⟨i, tx⟩ := p
    have htx : tx.status = TxStatus.Executed := hall (i, tx) (List.mem_cons_self _ _)
    have hr := revert_transaction_executed accounts tx htx
    simp only [revert_loop, hr, List.foldl_cons, List.map_cons]
    rw [ih _ (fun q hq => hall q (List.mem_cons_of_mem _ hq))]

theorem revert_loop_fail (l : List (Nat × Transaction)) :
    ∀ accounts, (∃ p ∈ l, p.2.status ≠ TxStatus.Executed) →
    (revert_loop accounts l).2.2 = some "Transaction was not executed" := by
  induction l with
  | nil =>
    rintro accounts ⟨p, hp, _⟩
    cases hp
  | cons q rest ih =>
    rintro accounts ⟨p, hp, hps⟩
    obtain ⟨i, tx⟩ := q
    by_cases hq : tx.status = TxStatus.Executed
    · have hr := revert_transaction_executed accounts tx hq
      simp only [revert_loop, hr]
      apply ih
      rcases List.mem_cons.mp hp with h1 | h2
      · exfalso
        rw [h1] at hps
        exact hps hq
      · exact ⟨p, h2, hps⟩
    · have hr := revert_transaction_not_executed accounts tx hq
      simp only [revert_loop, hr]

theorem foldl_set_enumFrom (f : Transaction → Transaction) :
    ∀ (post pre : List Transaction),
    (((List.enumFrom pre.length post).map (fun p => (p.1, f p.2))).reverse).foldl
        (fun ts e => ts.set e.1 e.2) (pre ++ post)
      = pre ++ post.map f := by
  intro post
  induction post with
  | nil => intro pre; simp
  | cons t ts ih =>
    intro pre
    rw [List.enumFrom_cons, List.map_cons, List.reverse_cons, List.foldl_append]
    have hlen : pre.length + 1 = (pre ++ [t]).length := by simp
    have hinit : pre ++ t :: ts = (pre ++ [t]) ++ ts := by simp
    rw [hlen, hinit, ih (pre ++ [t])]
    show (((pre ++ [t]) ++ ts.map f).set pre.length (f t)) = pre ++ f t :: ts.map f
    have : (pre ++ [t]) ++ ts.map f = pre ++ (t :: ts.map f) := by simp
    rw [this, List.set_append]
    rw [if_neg (by exact Nat.lt_irrefl _)]
    simp

/-- First failing state for the C7 counterexample: the second transaction
of the block is `Executed`, the first is still `Pending`. -/
def c7_dag1 : BlockDAG :=
  { blocks := [Block.genesis,
      Block.mk' "b1" ["genesis"]
        [⟨"t1", "alice", "bob", 100, 0, TxStatus.Pending⟩,
         ⟨"t2", "alice", "bob", 50, 99, TxStatus.Executed⟩] 1],
    children_mapping := [("genesis", ["b1"]), ("b1", [])],
    accounts := [ Account.mk' "alice" 1000, Account.mk' "bob" 500], k := 1 }

/-- Second failing state for the C7 counterexample: a different
transaction (different id, different position) fails. -/
def c7_dag2 : BlockDAG :=
  { blocks := [Block.genesis,
      Block.mk' "b1" ["genesis"] [⟨"t9", "carol", "dave", 7, 3, TxStatus.Pending⟩] 1],
    children_mapping := [("genesis", ["b1"]), ("b1", [])],
    accounts := [ Account.mk' "alice" 1000, Account.mk' "bob" 500], k := 1 }

/-- Counterexample to C7 as stated: when a reversal fails, the error is
the fixed string `Transaction was not executed` — identical for the two
states although the failing transactions differ (`t1` at index 0 of
`c7_dag1`, `t9` at index 0 of `c7_dag2`), so the report does not
identify the failing transaction.  Moreover in `c7_dag1` the already
reverted transaction `t2` keeps status `Executed` in the block (no
status is written back) even though its account effects were undone
(alice regained 50, bob lost 50). -/
theorem claim_C7_counterexample :
    (revert_block c7_dag1 "b1").2 = some "Transaction was not executed"
  ∧ (revert_block c7_dag2 "b1").2 = some "Transaction was not executed"
  ∧ ((lookup_block (revert_block c7_dag1 "b1").1 "b1").map
        (fun b => b.transactions.map (fun t => t.status))
      = some [TxStatus.Pending, TxStatus.Executed])
  ∧ (revert_block c7_dag1 "b1").1.accounts
      = [⟨"alice", 1050, 0⟩, ⟨"bob", 450, 0⟩] := by
  decide

/-- C7 (amended).  `revert_block` fails with a block-not-found error when
the block is absent, leaving the state unchanged; otherwise it reverts
the block's transactions in strict reverse of their order (the accounts
are folded over the reversed transaction list) and, on full success,
writes every status back as `Reverted`; if any single reversal fails the
whole operation fails with the fixed error `Transaction was not
executed` (which does not identify the failing transaction), no status
is written back into the block, while the account-state effects of the
reversals already performed persist. -/
theorem claim_C7 :
    (∀ d h, lookup_block d h = none →
        revert_block d h = (d, some ("Block " ++ h ++ " does not exist")))
  ∧ (∀ d h blk, lookup_block d h = some blk →
      (∀ tx ∈ blk.transactions, tx.status = TxStatus.Executed) →
      (revert_block d h).2 = none
      ∧ (revert_block d h).1.accounts
          = blk.transactions.reverse.foldl (fun a t => (revert_transaction a t).1) d.accounts
      ∧ ((lookup_block (revert_block d h).1 h).map
            (fun b => b.transactions.map (fun t => t.status))
          = some (blk.transactions.map (fun _ => TxStatus.Reverted))))
  ∧ (∀ d h blk, lookup_block d h = some blk →
      (∃ tx ∈ blk.transactions, tx.status ≠ TxStatus.Executed) →
      (revert_block d h).2 = some "Transaction was not executed"
      ∧ (revert_block d h).1.blocks = d.blocks) := by
  refine ⟨?_, ?_, ?_⟩
  · intro d h hnone
    simp only [revert_block, hnone]
  · intro d h blk hblk hall
    have hall' : ∀ p ∈ blk.transactions.enum.reverse, (p : Nat × Transaction).2.status
        = TxStatus.Executed := by
      intro p hp
      exact hall p.2 (mem_enumFrom_snd blk.transactions 0 p (List.mem_reverse.mp hp))
    have hloop := revert_loop_all blk.transactions.enum.reverse d.accounts hall'
    have hrb : revert_block d h
        = ({ d with
              accounts := blk.transactions.enum.reverse.foldl
                (fun a p => (revert_transaction a p.2).1) d.accounts,
              blocks := d.blocks.map (fun b =>
                if b.hash == h then
                  { b with transactions :=
                      ((blk.transactions.enum.reverse.map
                        (fun p => (p.1, { p.2 with status := TxStatus.Reverted }))).foldl
                        (fun ts e => ts.set e.1 e.2) blk.transactions) }
                else b) }, none) := by
      simp only [revert_block, hblk, hloop]
    have haccs : blk.transactions.enum.reverse.foldl
          (fun a p => (revert_transaction a p.2).1) d.accounts
        = blk.transactions.reverse.foldl (fun a t => (revert_transaction a t).1) d.accounts := by
      have h1 : blk.transactions.reverse
          = blk.transactions.enum.reverse.map Prod.snd := by
        rw [List.map_reverse, List.enum_map_snd]
      rw [h1, List.foldl_map]
    have htxsnew : ((blk.transactions.enum.reverse.map
          (fun p => (p.1, { p.2 with status := TxStatus.Reverted }))).foldl
          (fun ts e => ts.set e.1 e.2) blk.transactions)
        = blk.transactions.map (fun t => { t with status := TxStatus.Reverted }) := by
      rw [List.map_reverse]
      have h2 := foldl_set_enumFrom (fun t => { t with status := TxStatus.Reverted })
        blk.transactions []
      simpa using h2
    refine ⟨by rw [hrb], by rw [hrb]; exact haccs, ?_⟩
    have hbp : blk.hash = h := lookup_block_hash hblk
    have hlk : lookup_block (revert_block d h).1 h
        = some { blk with transactions :=
            blk.transactions.map (fun t => { t with status := TxStatus.Reverted }) } := by
      rw [hrb]
      show (List.find? (fun b => b.hash == h) (List.map (fun b =>
          if b.hash == h then
            { b with transactions := ((blk.transactions.enum.reverse.map
                (fun p => (p.1, { p.2 with status := TxStatus.Reverted }))).foldl
                (fun ts e => ts.set e.1 e.2) blk.transactions) }
          else b) d.blocks)) = _
      rw [find?_hash_map_update d.blocks h
        (fun b => { b with transactions := ((blk.transactions.enum.reverse.map
            (fun p => (p.1, { p.2 with status := TxStatus.Reverted }))).foldl
            (fun ts e => ts.set e.1 e.2) blk.transactions) })
        (fun b => rfl) h]
      show (lookup_block d h).map _ = _
      rw [hblk]
      rw [Option.map_some']
      have hcond : (blk.hash == h) = true := by simp [hbp]
      rw [if_pos hcond, htxsnew]
    rw [hlk]
    show some ((blk.transactions.map
        (fun t => ({ t with status := TxStatus.Reverted } : Transaction))).map
          (fun t => t.status))
      = some (blk.transactions.map (fun _ => TxStatus.Reverted))
    rw [List.map_map]
    exact rfl
  · intro d h blk hblk hex
    have hex' : ∃ p ∈ blk.transactions.enum.reverse,
        (p : Nat × Transaction).2.status ≠ TxStatus.Executed := by
      obtain ⟨tx, htx, hts⟩ := hex
      obtain ⟨i, hi⟩ := exists_mem_enum blk.transactions tx htx
      exact ⟨(i, tx), List.mem_reverse.mpr hi, hts⟩
    have hfail := revert_loop_fail blk.transactions.enum.reverse d.accounts hex'
    have hrb : revert_block d h
        = ({ d with accounts := (revert_loop d.accounts blk.transactions.enum.reverse).1 },
            some "Transaction was not executed") := by
      simp only [revert_block, hblk]
      rw [show (revert_loop d.accounts blk.transactions.enum.reverse)
          = ((revert_loop d.accounts blk.transactions.enum.reverse).1,
             (revert_loop d.accounts blk.transactions.enum.reverse).2.1,
             (revert_loop d.accounts blk.transactions.enum.reverse).2.2) from rfl, hfail]
    exact ⟨by rw [hrb], by rw [hrb]⟩

/-- Witness for C7 at a concrete input (absent block). -/
theorem claim_C7_witness :
    revert_block (BlockDAG.new 0) "nope"
      = (BlockDAG.new 0, some ("Block " ++ "nope" ++ " does not exist")) :=
  claim_C7.1 (BlockDAG.new 0) "nope" rfl

/-! ### C8: add_block with a missing parent -/

/-- C8.  Whenever a block references at least one parent id not present
in the DAG, `add_block` fails with a missing-parent error naming such a
parent and returns the state completely unchanged (the failing pair is
`(d, some msg)` — no map is touched). -/
theorem claim_C8 (d : BlockDAG) (b : Block)
    (hmiss : ∃ p ∈ b.parent_hashes, lookup_block d p = none) :
    ∃ p, p ∈ b.parent_hashes ∧ lookup_block d p = none
      ∧ add_block d b = (d, some ("Parent block " ++ p ++ " does not exist")) := by
  cases hfind : b.parent_hashes.find? (fun p => (lookup_block d p).isNone) with
  | none =>
    exfalso
    obtain ⟨p, hp, hnone⟩ := hmiss
    have := List.find?_eq_none.mp hfind p hp
    rw [hnone] at this
    exact this rfl
  | some p =>
    have hmem : p ∈ b.parent_hashes := List.mem_of_find?_eq_some hfind
    have hpred : ((lookup_block d p).isNone) = true := by
      have h' := List.find?_some hfind
      simpa using h'
    have hnone : lookup_block d p = none := Option.isNone_iff_eq_none.mp hpred
    refine ⟨p, hmem, hnone, ?_⟩
    simp only [add_block, hfind]

/-- Witness for C8 at a concrete input. -/
theorem claim_C8_witness :
    ∃ p, p ∈ ( Block.mk' "x" ["gone"] [] 1).parent_hashes
      ∧ lookup_block (BlockDAG.new 0) p = none
      ∧ add_block (BlockDAG.new 0) ( Block.mk' "x" ["gone"] [] 1)
          = (BlockDAG.new 0, some ("Parent block " ++ p ++ " does not exist")) :=
  claim_C8 (BlockDAG.new 0) ( Block.mk' "x" ["gone"] [] 1) ⟨"gone", by decide, rfl⟩

/-! ### C10: revert of an Executed transaction with missing accounts -/

/-- C10.  For a transaction with status `Executed` whose sender account
is absent, `revert_transaction` succeeds and sets the status to
`Reverted` while restoring no sender balance or nonce (the sender stays
absent); when the receiver account is absent the deduction is likewise
silently skipped (the receiver stays absent, and with both absent the
account map is unchanged); `revert_block` on a block holding exactly
such a transaction also reports success. -/
theorem claim_C10 (accounts : List Account) (tx : Transaction)
    (hst : tx.status = TxStatus.Executed) :
    (∃ accounts', revert_transaction accounts tx
        = (accounts', { tx with status := TxStatus.Reverted }, none))
  ∧ (lookup_account accounts tx.from_ = none →
      lookup_account (revert_transaction accounts tx).1 tx.from_ = none)
  ∧ (lookup_account accounts tx.to_ = none →
      lookup_account (revert_transaction accounts tx).1 tx.to_ = none)
  ∧ (lookup_account accounts tx.from_ = none → lookup_account accounts tx.to_ = none →
      (revert_transaction accounts tx).1 = accounts)
  ∧ (∀ d h blk, lookup_block d h = some blk → blk.transactions = [tx] →
      (revert_block d h).2 = none) := by
  have hr := revert_transaction_executed accounts tx hst
  have hRaddr : ∀ a : Account,
      ((({ a with balance := a.balance + tx.amount, nonce := a.nonce - 1 }) : Account)).address
        = a.address := fun a => rfl
  have hSaddr : ∀ a : Account,
      ((if tx.amount ≤ a.balance then
          ({ a with balance := a.balance - tx.amount } : Account) else a)).address
        = a.address := by
    intro a
    by_cases hc : tx.amount ≤ a.balance <;> simp [hc]
  refine ⟨⟨_, hr⟩, ?_, ?_, ?_, ?_⟩
  · intro hfrom
    rw [hr]
    show lookup_account ((accounts.map _).map _) tx.from_ = none
    rw [lookup_account_map_update _ tx.to_ _ hSaddr tx.from_]
    rw [lookup_account_map_update _ tx.from_ _ hRaddr tx.from_]
    rw [hfrom]
    rfl
  · intro hto
    rw [hr]
    show lookup_account ((accounts.map _).map _) tx.to_ = none
    rw [lookup_account_map_update _ tx.to_ _ hSaddr tx.to_]
    rw [lookup_account_map_update _ tx.from_ _ hRaddr tx.to_]
    rw [hto]
    rfl
  · intro hfrom hto
    rw [hr]
    show (accounts.map _).map _ = accounts
    have h1 : accounts.map (fun a => if a.address == tx.from_ then
        ({ a with balance := a.balance + tx.amount, nonce := a.nonce - 1 } : Account) else a)
        = accounts := by
      have hid : ∀ a ∈ accounts, (if a.address == tx.from_ then
          ({ a with balance := a.balance + tx.amount, nonce := a.nonce - 1 } : Account) else a)
          = a := by
        intro a ha
        have := List.find?_eq_none.mp hfrom a ha
        have hne : (a.address == tx.from_) = false := by
          rw [Bool.eq_false_iff]
          exact this
        rw [hne]
        rfl
      rw [List.map_congr_left hid, List.map_id']
    rw [h1]
    have hid2 : ∀ a ∈ accounts, (if a.address == tx.to_ then
        (if tx.amount ≤ a.balance then
          ({ a with balance := a.balance - tx.amount } : Account) else a) else a) = a := by
      intro a ha
      have := List.find?_eq_none.mp hto a ha
      have hne : (a.address == tx.to_) = false := by
        rw [Bool.eq_false_iff]
        exact this
      rw [hne]
      rfl
    rw [List.map_congr_left hid2, List.map_id']
  · intro d h blk hblk htxs
    have hall : ∀ p ∈ blk.transactions.enum.reverse,
        (p : Nat × Transaction).2.status = TxStatus.Executed := by
      intro p hp
      have := mem_enumFrom_snd blk.transactions 0 p (List.mem_reverse.mp hp)
      rw [htxs] at this
      rcases List.mem_cons.mp this with h1 | h2
      · rw [h1]; exact hst
      · cases h2
    have hloop := revert_loop_all blk.transactions.enum.reverse d.accounts hall
    simp only [revert_block, hblk, hloop]

/-- Witness for C10 at a concrete input (both accounts absent). -/
theorem claim_C10_witness :
    (∃ accounts', revert_transaction []
        (⟨"t", "ghost", "gone", 5, 3, TxStatus.Executed⟩ : Transaction)
        = (accounts',
           { (⟨"t", "ghost", "gone", 5, 3, TxStatus.Executed⟩ : Transaction) with
              status := TxStatus.Reverted }, none))
  ∧ (revert_transaction []
        (⟨"t", "ghost", "gone", 5, 3, TxStatus.Executed⟩ : Transaction)).1 = [] :=
  ⟨(claim_C10 [] _ rfl).1, (claim_C10 [] _ rfl).2.2.2.1 rfl rfl⟩

/-! ### The heap order: basic facts -/

theorem blt_self_false (n : Nat) : Nat.blt n n = false := by
  rw [Bool.eq_false_iff, Ne, Nat.blt_eq]
  exact Nat.lt_irrefl n

theorem str_lt_chars_irrefl : ∀ l, str_lt_chars l l = false := by
  intro l
  induction l with
  | nil => rfl
  | cons c cs ih =>
    simp only [str_lt_chars, blt_self_false, if_false]
    exact ih

theorem str_lt_chars_trans :
    ∀ a b c, str_lt_chars a b = true → str_lt_chars b c = true →
      str_lt_chars a c = true := by
  intro a
  induction a with
  | nil =>
    intro b c hab hbc
    cases b with
    | nil => exact absurd hab (by simp [str_lt_chars])
    | cons y ys =>
      cases c with
      | nil => exact absurd hbc (by simp [str_lt_chars])
      | cons z zs => rfl
  | cons x xs ih =>
    intro b c hab hbc
    cases b with
    | nil => exact absurd hab (by simp [str_lt_chars])
    | cons y ys =>
      cases c with
      | nil => exact absurd hbc (by simp [str_lt_chars])
      | cons z zs =>
        simp only [str_lt_chars] at hab hbc ⊢
        cases h1 : Nat.blt x.toNat y.toNat with
        | true =>
          have hlt1 : x.toNat < y.toNat := by rw [← Nat.blt_eq]; exact h1
          cases h2 : Nat.blt y.toNat z.toNat with
          | true =>
            have hlt2 : y.toNat < z.toNat := by rw [← Nat.blt_eq]; exact h2
            have : Nat.blt x.toNat z.toNat = true := by
              rw [Nat.blt_eq]; omega
            simp [this]
          | false =>
            rw [h2, if_neg (by simp)] at hbc
            cases h3 : Nat.blt z.toNat y.toNat with
            | true => rw [h3] at hbc; exact absurd hbc (by simp)
            | false =>
              have he2 : y.toNat = z.toNat := by
                have n1 : ¬ y.toNat < z.toNat := by rw [← Nat.blt_eq, h2]; simp
                have n2 : ¬ z.toNat < y.toNat := by rw [← Nat.blt_eq, h3]; simp
                omega
              have : Nat.blt x.toNat z.toNat = true := by rw [Nat.blt_eq]; omega
              simp [this]
        | false =>
          rw [h1, if_neg (by simp)] at hab
          cases h1' : Nat.blt y.toNat x.toNat with
          | true => rw [h1'] at hab; exact absurd hab (by simp)
          | false =>
            rw [h1'] at hab
            have he1 : x.toNat = y.toNat := by
              have n1 : ¬ x.toNat < y.toNat := by rw [← Nat.blt_eq, h1]; simp
              have n2 : ¬ y.toNat < x.toNat := by rw [← Nat.blt_eq, h1']; simp
              omega
            simp at hab
            cases h2 : Nat.blt y.toNat z.toNat with
            | true =>
              have hlt2 : y.toNat < z.toNat := by rw [← Nat.blt_eq]; exact h2
              have : Nat.blt x.toNat z.toNat = true := by rw [Nat.blt_eq]; omega
              simp [this]
            | false =>
              rw [h2, if_neg (by simp)] at hbc
              cases h3 : Nat.blt z.toNat y.toNat with
              | true => rw [h3] at hbc; exact absurd hbc (by simp)
              | false =>
                rw [h3] at hbc
                have he2 : y.toNat = z.toNat := by
                  have n1 : ¬ y.toNat < z.toNat := by rw [← Nat.blt_eq, h2]; simp
                  have n2 : ¬ z.toNat < y.toNat := by rw [← Nat.blt_eq, h3]; simp
                  omega
                simp at hbc
                have hb1 : Nat.blt x.toNat z.toNat = false := by
                  rw [Bool.eq_false_iff, Ne, Nat.blt_eq]; omega
                have hb2 : Nat.blt z.toNat x.toNat = false := by
                  rw [Bool.eq_false_iff, Ne, Nat.blt_eq]; omega
                rw [hb1, if_neg (by simp), hb2, if_neg (by simp)]
                exact ih ys zs hab hbc

theorem str_lt_chars_eq_of_not :
    ∀ a b, str_lt_chars a b = false → str_lt_chars b a = false → a = b := by
  intro a
  induction a with
  | nil =>
    intro b hab _
    cases b with
    | nil => rfl
    | cons y ys => exact absurd hab (by simp [str_lt_chars])
  | cons x xs ih =>
    intro b hab hba
    cases b with
    | nil => exact absurd hba (by simp [str_lt_chars])
    | cons y ys =>
      simp only [str_lt_chars] at hab hba
      cases h1 : Nat.blt x.toNat y.toNat with
      | true => rw [h1] at hab; exact absurd hab (by simp)
      | false =>
        cases h2 : Nat.blt y.toNat x.toNat with
        | true => rw [h2] at hba; exact absurd hba (by simp)
        | false =>
          rw [h1] at hab
          rw [h2] at hba
          simp only [h2] at hab
          simp only [h1] at hba
          simp at hab hba
          have hxy : x.toNat = y.toNat := by
            have n1 : ¬ x.toNat < y.toNat := by rw [← Nat.blt_eq, h1]; simp
            have n2 : ¬ y.toNat < x.toNat := by rw [← Nat.blt_eq, h2]; simp
            omega
          have hc : x = y := Char.ext (UInt32.toNat.inj hxy)
          rw [hc, ih ys hab hba]

theorem entry_lt_iff (a b : Entry) : entry_lt a b = true ↔
    (a.1 < b.1 ∨ (a.1 = b.1 ∧ (b.2.1 < a.2.1
      ∨ (a.2.1 = b.2.1 ∧ str_lt_chars a.2.2.data b.2.2.data = true)))) := by
  simp [entry_lt, str_lt, Nat.blt_eq]

theorem entry_lt_irrefl (a : Entry) : entry_lt a a = false := by
  simp [entry_lt, blt_self_false, str_lt, str_lt_chars_irrefl]

theorem entry_lt_trans {a b c : Entry} (h1 : entry_lt a b = true)
    (h2 : entry_lt b c = true) : entry_lt a c = true := by
  rw [entry_lt_iff] at h1 h2 ⊢
  rcases h1 with h1 | ⟨e1, h1'⟩
  · rcases h2 with h2 | ⟨e2, _⟩
    · left; omega
    · left; omega
  · rcases h2 with h2 | ⟨e2, h2'⟩
    · left; omega
    · right
      refine ⟨by omega, ?_⟩
      rcases h1' with h1' | ⟨e1', hs1⟩
      · rcases h2' with h2' | ⟨e2', _⟩
        · left; omega
        · left; omega
      · rcases h2' with h2' | ⟨e2', hs2⟩
        · left; omega
        · right
          exact ⟨by omega, str_lt_chars_trans _ _ _ hs1 hs2⟩

theorem entry_lt_eq_of_not {a b : Entry} (h1 : entry_lt a b = false)
    (h2 : entry_lt b a = false) : a = b := by
  have h1' : ¬ entry_lt a b = true := by rw [h1]; simp
  have h2' : ¬ entry_lt b a = true := by rw [h2]; simp
  rw [entry_lt_iff] at h1' h2'
  push_neg at h1' h2'
  obtain ⟨hp1, hp2⟩ := h1'
  obtain ⟨hq1, hq2⟩ := h2'
  have hpc : a.1 = b.1 := by omega
  obtain ⟨ht1, ht2⟩ := hp2 hpc
  obtain ⟨hu1, hu2⟩ := hq2 hpc.symm
  have hts : a.2.1 = b.2.1 := by omega
  have hs1 : str_lt_chars a.2.2.data b.2.2.data = false := by
    have := ht2 hts
    rw [Bool.eq_false_iff]
    exact this
  have hs2 : str_lt_chars b.2.2.data a.2.2.data = false := by
    have := hu2 hts.symm
    rw [Bool.eq_false_iff]
    exact this
  have hstr : a.2.2 = b.2.2 :=
    String.ext (str_lt_chars_eq_of_not _ _ hs1 hs2)
  obtain ⟨a1, a2, a3⟩ := a
  obtain ⟨b1, b2, b3⟩ := b
  simp at hpc hts hstr
  rw [hpc, hts, hstr]

theorem entry_lt_asymm {a b : Entry} (h : entry_lt a b = true) :
    entry_lt b a = false := by
  cases hc : entry_lt b a with
  | false => rfl
  | true =>
    have := entry_lt_trans h hc
    rw [entry_lt_irrefl] at this
    exact absurd this (by simp)

theorem entry_nlt_trans {a b c : Entry} (h1 : entry_lt a b = false)
    (h2 : entry_lt b c = false) : entry_lt a c = false := by
  cases hc : entry_lt a c with
  | false => rfl
  | true =>
    exfalso
    cases hab : entry_lt b a with
    | false =>
      have heq : b = a := entry_lt_eq_of_not hab h1
      rw [heq] at h2
      rw [h2] at hc
      exact absurd hc (by simp)
    | true =>
      have := entry_lt_trans hab hc
      rw [h2] at this
      exact absurd this (by simp)

theorem heap_max_spec (l : List Entry) :
    ∀ e : Entry, (heap_max e l = e ∨ heap_max e l ∈ l)
    ∧ entry_lt (heap_max e l) e = false
    ∧ ∀ x ∈ l, entry_lt (heap_max e l) x = false := by
  induction l with
  | nil =>
    intro e
    exact ⟨Or.inl rfl, entry_lt_irrefl e, fun x hx => absurd hx (List.not_mem_nil x)⟩
  | cons y ys ih =>
    intro e
    have hstep : heap_max e (y :: ys) = heap_max (if entry_lt e y then y else e) ys := rfl
    obtain ⟨hmem, hne', hall⟩ := ih (if entry_lt e y then y else e)
    have he'e : entry_lt (if entry_lt e y then y else e) e = false := by
      by_cases hc : entry_lt e y = true
      · rw [if_pos hc]
        exact entry_lt_asymm hc
      · rw [if_neg hc]
        exact entry_lt_irrefl e
    have he'y : entry_lt (if entry_lt e y then y else e) y = false := by
      by_cases hc : entry_lt e y = true
      · rw [if_pos hc]
        exact entry_lt_irrefl y
      · rw [if_neg hc]
        exact Bool.eq_false_iff.mpr hc
    refine ⟨?_, ?_, ?_⟩
    · rw [hstep]
      rcases hmem with h | h
      · rw [h]
        by_cases hc : entry_lt e y = true
        · rw [if_pos hc]
          exact Or.inr (List.mem_cons_self _ _)
        · rw [if_neg hc]
          exact Or.inl rfl
      · exact Or.inr (List.mem_cons_of_mem _ h)
    · rw [hstep]
      exact entry_nlt_trans hne' he'e
    · intro x hx
      rw [hstep]
      rcases List.mem_cons.mp hx with h | h
      · rw [h]
        exact entry_nlt_trans hne' he'y
      · exact hall x h

theorem pop_max_spec (heap : List Entry) (e : Entry) (rest : List Entry)
    (hp : pop_max heap = some (e, rest)) : ∀ x ∈ heap, entry_lt e x = false := by
  cases heap with
  | nil => cases hp
  | cons a l =>
    simp only [pop_max] at hp
    injection hp with hp'
    have h1 : e = heap_max a l := by
      have := congrArg Prod.fst hp'
      exact this.symm
    intro x hx
    rw [h1]
    obtain ⟨_, hne, hall⟩ := heap_max_spec l a
    rcases List.mem_cons.mp hx with h | h
    · rw [h]
      exact hne
    · exact hall x h

/-! ### Keyed lookup under permutation -/

theorem find?_key_some_iff {α : Type} (key : α → String) (l : List α)
    (hnd : (l.map key).Nodup) (h : String) (a : α) :
    l.find? (fun x => key x == h) = some a ↔ (a ∈ l ∧ key a = h) := by
  induction l with
  | nil => simp
  | cons b rest ih =>
    rw [List.map_cons, List.nodup_cons] at hnd
    obtain ⟨hout, hnd'⟩ := hnd
    by_cases hbh : key b = h
    · have hc : (key b == h) = true := by simp [hbh]
      rw [List.find?_cons, hc]
      constructor
      · intro heq
        injection heq with heq
        rw [← heq]
        exact ⟨List.mem_cons_self _ _, hbh⟩
      · rintro ⟨hmem, hkey⟩
        rcases List.mem_cons.mp hmem with h1 | h2
        · rw [h1]
        · exfalso
          apply hout
          rw [hbh, ← hkey]
          exact List.mem_map_of_mem key h2
    · have hc : (key b == h) = false := by simp [hbh]
      rw [List.find?_cons, hc]
      rw [ih hnd']
      constructor
      · rintro ⟨hmem, hkey⟩
        exact ⟨List.mem_cons_of_mem _ hmem, hkey⟩
      · rintro ⟨hmem, hkey⟩
        rcases List.mem_cons.mp hmem with h1 | h2
        · exfalso
          rw [h1] at hkey
          exact hbh hkey
        · exact ⟨h2, hkey⟩

theorem find?_key_perm {α : Type} (key : α → String) {l1 l2 : List α}
    (hp : l1.Perm l2) (hnd : (l1.map key).Nodup) (h : String) :
    l1.find? (fun x => key x == h) = l2.find? (fun x => key x == h) := by
  have hnd2 : (l2.map key).Nodup := ((hp.map key).nodup_iff).mp hnd
  cases hf : l1.find? (fun x => key x == h) with
  | some a =>
    obtain ⟨hmem, hkey⟩ := (find?_key_some_iff key l1 hnd h a).mp hf
    exact ((find?_key_some_iff key l2 hnd2 h a).mpr ⟨hp.mem_iff.mp hmem, hkey⟩).symm
  | none =>
    cases hf2 : l2.find? (fun x => key x == h) with
    | none => rfl
    | some a =>
      obtain ⟨hmem, hkey⟩ := (find?_key_some_iff key l2 hnd2 h a).mp hf2
      have := List.find?_eq_none.mp hf a (hp.mem_iff.mpr hmem)
      simp [hkey] at this

/-! ### Block-map lemmas for the ordering pass -/

theorem find?_hash_map (l : List Block) (f : Block → Block)
    (hf : ∀ b, (f b).hash = b.hash) (x : String) :
    (l.map f).find? (fun b => b.hash == x) = (l.find? (fun b => b.hash == x)).map f := by
  rw [List.find?_map]
  have hp : ((fun b : Block => b.hash == x) ∘ f) = (fun b : Block => b.hash == x) := by
    funext b
    simp [Function.comp, hf]
  rw [hp]

theorem any_hash_eq_isSome (l : List Block) (x : String) :
    l.any (fun b => b.hash == x) = (l.find? (fun b => b.hash == x)).isSome := by
  by_cases h : (l.find? (fun b => b.hash == x)).isSome = true
  · rw [h]
    rw [List.find?_isSome] at h
    exact List.any_eq_true.mpr h
  · have h' := h
    rw [List.find?_isSome] at h'
    rw [Bool.not_eq_true] at h
    rw [h]
    rw [← Bool.not_eq_true]
    intro hc
    exact h' (List.any_eq_true.mp hc)

theorem assign_weights_pointwise (os : List String) :
    ∀ (bs1 bs2 : List Block) (w : Nat),
      (∀ h, bs1.find? (fun b => b.hash == h) = bs2.find? (fun b => b.hash == h)) →
      (∀ h, (assign_weights os bs1 w).1.find? (fun b => b.hash == h)
          = (assign_weights os bs2 w).1.find? (fun b => b.hash == h)) := by
  induction os with
  | nil => intro bs1 bs2 w hpt; exact hpt
  | cons h0 os ih =>
    intro bs1 bs2 w hpt
    have hany : bs1.any (fun b => b.hash == h0) = bs2.any (fun b => b.hash == h0) := by
      rw [any_hash_eq_isSome, any_hash_eq_isSome, hpt h0]
    have hstep1 : assign_weights (h0 :: os) bs1 w
        = assign_weights os (if bs1.any (fun b => b.hash == h0) then
            (bs1.map (fun b => if b.hash == h0 then
              { b with color := BlockColor.Blue, weight := w + 1 } else b)) else bs1)
          (if bs1.any (fun b => b.hash == h0) then w + 1 else w) := by
      show List.foldl _ _ (h0 :: os) = _
      rw [List.foldl_cons]
      congr 1
      show (if (bs1.any (fun b => b.hash == h0)) = true then
          (bs1.map (fun b => if b.hash == h0 then
            { b with color := BlockColor.Blue, weight := w + 1 } else b), w + 1)
        else (bs1, w)) = _
      by_cases hc : bs1.any (fun b => b.hash == h0) = true
      · rw [if_pos hc, if_pos hc, if_pos hc]
      · rw [if_neg hc, if_neg hc, if_neg hc]
    have hstep2 : assign_weights (h0 :: os) bs2 w
        = assign_weights os (if bs2.any (fun b => b.hash == h0) then
            (bs2.map (fun b => if b.hash == h0 then
              { b with color := BlockColor.Blue, weight := w + 1 } else b)) else bs2)
          (if bs2.any (fun b => b.hash == h0) then w + 1 else w) := by
      show List.foldl _ _ (h0 :: os) = _
      rw [List.foldl_cons]
      congr 1
      show (if (bs2.any (fun b => b.hash == h0)) = true then
          (bs2.map (fun b => if b.hash == h0 then
            { b with color := BlockColor.Blue, weight := w + 1 } else b), w + 1)
        else (bs2, w)) = _
      by_cases hc : bs2.any (fun b => b.hash == h0) = true
      · rw [if_pos hc, if_pos hc, if_pos hc]
      · rw [if_neg hc, if_neg hc, if_neg hc]
    rw [hstep1, hstep2, ← hany]
    by_cases hc : bs1.any (fun b => b.hash == h0) = true
    · rw [if_pos hc, if_pos hc, if_pos hc]
      apply ih
      intro h
      rw [find?_hash_map _ _ (fun b => by
          by_cases hbb : b.hash = h0 <;> simp [hbb]) h]
      rw [find?_hash_map _ _ (fun b => by
          by_cases hbb : b.hash = h0 <;> simp [hbb]) h]
      rw [hpt h]
    · rw [if_neg hc, if_neg hc, if_neg hc]
      exact ih bs1 bs2 w hpt

/-! ### Extensionality of the GHOSTDAG sort -/

theorem ghostdag_sort_ext (d1 d2 : BlockDAG)
    (hk : d1.k = d2.k)
    (hcore : core_of d1 = core_of d2)
    (hch : children_of d1 = children_of d2)
    (hlen : d1.blocks.length = d2.blocks.length)
    (hfuel : bfs_fuel d1 = bfs_fuel d2) :
    ghostdag_sort d1 = ghostdag_sort d2 := by
  unfold ghostdag_sort
  rw [hcore, hch, hk, hlen, hfuel]

/-! ### C1: ordering priority and determinism -/

/-- Reachable state with two equal-timestamp siblings `a`, `b`. -/
def c1_dagA : BlockDAG :=
  (add_block (add_block (BlockDAG.new 5) ( Block.mk' "a" ["genesis"] [] 100)).1
    ( Block.mk' "b" ["genesis"] [] 100)).1

/-- The same structure with sibling `a` renamed to `c`. -/
def c1_dagB : BlockDAG :=
  (add_block (add_block (BlockDAG.new 5) ( Block.mk' "c" ["genesis"] [] 100)).1
    ( Block.mk' "b" ["genesis"] [] 100)).1

/-- Counterexample to C1 as stated: `a` and `b` have the same parent
count and the same timestamp, yet the orderer deterministically puts the
lexicographically larger hash first (`b` before `a`); renaming `a` to
`c` — changing nothing but a hash — flips the position of the very same
block `b`.  Ties between equal parent count and equal timestamp are
therefore broken by the hash, so timestamp is not the only tie-break. -/
theorem claim_C1_counterexample :
    ghostdag_sort c1_dagA = ["genesis", "b", "a"]
  ∧ ghostdag_sort c1_dagB = ["genesis", "c", "b"] := by
  decide

/-- C1 (amended).  The orderer is a deterministic function of the block
set and `k`: permuting the block map and the child-adjacency map (the
insertion order) changes neither the ordered sequence nor any block's
resulting color and weight; and the entry the heap pops is always a
greatest entry under the priority order — more parents first, then
smaller timestamp, then lexicographically larger hash. -/
theorem claim_C1 :
    (∀ d1 d2 : BlockDAG, d1.k = d2.k → d1.blocks.Perm d2.blocks →
      d1.children_mapping.Perm d2.children_mapping →
      (d1.blocks.map (fun b => b.hash)).Nodup →
      (d1.children_mapping.map (fun e => e.1)).Nodup →
      ghostdag_sort d1 = ghostdag_sort d2
        ∧ ∀ h, lookup_block (update_ghostdag_ordering d1) h
            = lookup_block (update_ghostdag_ordering d2) h)
  ∧ (∀ heap e rest, pop_max heap = some (e, rest) →
      ∀ x ∈ heap, entry_lt e x = false) := by
  constructor
  · intro d1 d2 hk hpb hpc hndb hndc
    have hb : ∀ h, lookup_block d1 h = lookup_block d2 h := by
      intro h
      show d1.blocks.find? (fun b => b.hash == h) = d2.blocks.find? (fun b => b.hash == h)
      exact find?_key_perm (fun b : Block => b.hash) hpb hndb h
    have hcoreF : core_of d1 = core_of d2 := by
      funext h
      unfold core_of
      rw [hb h]
    have hchF : children_of d1 = children_of d2 := by
      funext h
      unfold children_of
      rw [find?_key_perm (fun e => e.1) hpc hndc h]
    have hlen := hpb.length_eq
    have hfuel : bfs_fuel d1 = bfs_fuel d2 := by
      unfold bfs_fuel
      rw [hpb.length_eq, (hpb.map (fun b => b.parent_hashes.length)).sum_eq,
        (hpc.map (fun e => e.2.length)).sum_eq]
    have hsort := ghostdag_sort_ext d1 d2 hk hcoreF hchF hlen hfuel
    refine ⟨hsort, ?_⟩
    intro h
    have hreset : ∀ x, (d1.blocks.map
          (fun b => { b with color := BlockColor.Red, weight := 0 })).find?
            (fun b => b.hash == x)
        = (d2.blocks.map
            (fun b => { b with color := BlockColor.Red, weight := 0 })).find?
              (fun b => b.hash == x) := by
      intro x
      rw [find?_hash_map d1.blocks
          (fun b => { b with color := BlockColor.Red, weight := 0 }) (fun b => rfl) x,
        find?_hash_map d2.blocks
          (fun b => { b with color := BlockColor.Red, weight := 0 }) (fun b => rfl) x]
      have hx := hb x
      unfold lookup_block at hx
      rw [hx]
    have hpw := assign_weights_pointwise (ghostdag_sort d1)
      (d1.blocks.map (fun b => { b with color := BlockColor.Red, weight := 0 }))
      (d2.blocks.map (fun b => { b with color := BlockColor.Red, weight := 0 }))
      0 hreset h
    show (assign_weights (ghostdag_sort d1)
        (d1.blocks.map (fun b => { b with color := BlockColor.Red, weight := 0 })) 0).1.find?
          (fun b => b.hash == h)
      = (assign_weights (ghostdag_sort d2)
          (d2.blocks.map (fun b => { b with color := BlockColor.Red, weight := 0 })) 0).1.find?
            (fun b => b.hash == h)
    rw [← hsort]
    exact hpw
  · exact pop_max_spec

/-- `c1_dagA` with both maps reversed: the same state up to insertion
order. -/
def c1_dagQ : BlockDAG :=
  { c1_dagA with blocks := c1_dagA.blocks.reverse,
                 children_mapping := c1_dagA.children_mapping.reverse }

/-- Witness for C1 at concrete inputs. -/
theorem claim_C1_witness :
    (ghostdag_sort c1_dagA = ghostdag_sort c1_dagQ
      ∧ ∀ h, lookup_block (update_ghostdag_ordering c1_dagA) h
          = lookup_block (update_ghostdag_ordering c1_dagQ) h)
  ∧ entry_lt (2, 5, "z") (1, 9, "a") = false :=
  ⟨claim_C1.1 c1_dagA c1_dagQ rfl (List.reverse_perm _).symm (List.reverse_perm _).symm
      (by decide) (by decide),
   claim_C1.2 [(1, 9, "a"), (2, 5, "z")] (2, 5, "z") [(1, 9, "a")] rfl (1, 9, "a")
      (by decide)⟩

/-! ### C9: structure of the DAG under insertion -/

/-- The parent relation recorded in the block map: `u` lists `v` among
its parents. -/
def block_edge (d : BlockDAG) (u v : String) : Prop :=
  ∃ ps, (lookup_block d u).map (fun b => b.parent_hashes) = some ps ∧ v ∈ ps

/-- Every recorded parent is itself present in the block map. -/
def closed_parents (d : BlockDAG) : Prop :=
  ∀ u ps, (lookup_block d u).map (fun b => b.parent_hashes) = some ps →
    ∀ p ∈ ps, (lookup_block d p).isSome = true

/-- Counterexample to C9 as stated: re-inserting a block whose hash is
`genesis` with itself as parent is a *successful* `add_block` call whose
parent references all exist, yet afterwards `get_all_blocks` has length
1 (not insertions + 1 = 2) and the parent relation contains the cycle
`genesis → genesis`. -/
theorem claim_C9_counterexample :
    (add_block (BlockDAG.new 1) ( Block.mk' "genesis" ["genesis"] [] 5)).2 = none
  ∧ (get_all_blocks (add_block (BlockDAG.new 1)
      ( Block.mk' "genesis" ["genesis"] [] 5)).1).length = 1
  ∧ Relation.TransGen
      (block_edge (add_block (BlockDAG.new 1) ( Block.mk' "genesis" ["genesis"] [] 5)).1)
      "genesis" "genesis" := by
  refine ⟨by decide, by decide, Relation.TransGen.single ?_⟩
  refine ⟨["genesis"], by decide, by decide⟩

/-- `assign_weights` on a longer order list, one step unfolded. -/
theorem assign_weights_cons (h0 : String) (os : List String) (bs : List Block) (w : Nat) :
    assign_weights (h0 :: os) bs w
      = assign_weights os
          (if bs.any (fun b => b.hash == h0) then
            bs.map (fun b => if b.hash == h0 then
              { b with color := BlockColor.Blue, weight := w + 1 } else b)
          else bs)
          (if bs.any (fun b => b.hash == h0) then w + 1 else w) := by
  show List.foldl _ _ (h0 :: os) = _
  rw [List.foldl_cons]
  congr 1
  show (if (bs.any (fun b => b.hash == h0)) = true then
      (bs.map (fun b => if b.hash == h0 then
        { b with color := BlockColor.Blue, weight := w + 1 } else b), w + 1)
    else (bs, w)) = _
  by_cases hc : bs.any (fun b => b.hash == h0) = true
  · rw [if_pos hc, if_pos hc, if_pos hc]
  · rw [if_neg hc, if_neg hc, if_neg hc]

theorem assign_weights_length (os : List String) :
    ∀ (bs : List Block) (w : Nat), (assign_weights os bs w).1.length = bs.length := by
  induction os with
  | nil => intro bs w; rfl
  | cons h0 os ih =>
    intro bs w
    rw [assign_weights_cons]
    by_cases hc : bs.any (fun b => b.hash == h0) = true
    · rw [if_pos hc, if_pos hc, ih, List.length_map]
    · rw [if_neg hc, if_neg hc, ih]

theorem assign_weights_parents_isSome (os : List String) :
    ∀ (bs : List Block) (w : Nat) (h : String),
      (((assign_weights os bs w).1.find? (fun b => b.hash == h)).map
            (fun b => b.parent_hashes)
          = ((bs.find? (fun b => b.hash == h)).map (fun b => b.parent_hashes)))
      ∧ ((assign_weights os bs w).1.find? (fun b => b.hash == h)).isSome
          = (bs.find? (fun b => b.hash == h)).isSome := by
  induction os with
  | nil => intro bs w h; exact ⟨rfl, rfl⟩
  | cons h0 os ih =>
    intro bs w h
    rw [assign_weights_cons]
    by_cases hc : bs.any (fun b => b.hash == h0) = true
    · rw [if_pos hc, if_pos hc]
      obtain ⟨ihp, ihs⟩ := ih (bs.map (fun b => if b.hash == h0 then
        { b with color := BlockColor.Blue, weight := w + 1 } else b)) (w + 1) h
      rw [ihp, ihs]
      rw [find?_hash_map bs
        (fun b => if b.hash == h0 then
          { b with color := BlockColor.Blue, weight := w + 1 } else b)
        (fun b => by by_cases hbb : b.hash = h0 <;> simp [hbb]) h]
      constructor
      · cases hf : bs.find? (fun b => b.hash == h) with
        | none => rfl
        | some a =>
          by_cases hbb : a.hash = h0 <;> simp [hbb]
      · cases hf : bs.find? (fun b => b.hash == h) <;> rfl
    · rw [if_neg hc, if_neg hc]
      exact ih bs w h

theorem update_ordering_parents (d : BlockDAG) (h : String) :
    ((lookup_block (update_ghostdag_ordering d) h).map (fun b => b.parent_hashes)
        = (lookup_block d h).map (fun b => b.parent_hashes))
    ∧ (lookup_block (update_ghostdag_ordering d) h).isSome = (lookup_block d h).isSome := by
  obtain ⟨hp, hs⟩ := assign_weights_parents_isSome (ghostdag_sort d)
    (d.blocks.map (fun b => { b with color := BlockColor.Red, weight := 0 })) 0 h
  have hfr := find?_hash_map d.blocks
    (fun b => { b with color := BlockColor.Red, weight := 0 }) (fun b => rfl) h
  constructor
  · show ((assign_weights (ghostdag_sort d)
        (d.blocks.map (fun b => { b with color := BlockColor.Red, weight := 0 })) 0).1.find?
          (fun b => b.hash == h)).map (fun b => b.parent_hashes)
      = (d.blocks.find? (fun b => b.hash == h)).map (fun b => b.parent_hashes)
    rw [hp, hfr]
    cases hf : d.blocks.find? (fun b => b.hash == h) <;> rfl
  · show ((assign_weights (ghostdag_sort d)
        (d.blocks.map (fun b => { b with color := BlockColor.Red, weight := 0 })) 0).1.find?
          (fun b => b.hash == h)).isSome
      = (d.blocks.find? (fun b => b.hash == h)).isSome
    rw [hs, hfr]
    cases hf : d.blocks.find? (fun b => b.hash == h) <;> rfl

theorem update_ordering_length (d : BlockDAG) :
    (update_ghostdag_ordering d).blocks.length = d.blocks.length := by
  show (assign_weights _ (d.blocks.map _) 0).1.length = _
  rw [assign_weights_length, List.length_map]

theorem lookup_append_block (l : List Block) (b : Block) (h : String) :
    (l ++ [b]).find? (fun x => x.hash == h)
      = (l.find? (fun x => x.hash == h)).or (if b.hash == h then some b else none) := by
  rw [List.find?_append]
  congr 1
  by_cases hbh : b.hash = h
  · have hb : (b.hash == h) = true := by simp [hbh]
    simp [List.find?, hb]
  · have hb : (b.hash == h) = false := by simp [hbh]
    simp [List.find?, hb]

theorem add_block_ok_shape (d : BlockDAG) (b : Block)
    (hok : (add_block d b).2 = none) :
    (∀ p ∈ b.parent_hashes, (lookup_block d p).isSome = true)
    ∧ (add_block d b).1 = update_ghostdag_ordering
        { d with blocks := insert_block d.blocks b,
                 children_mapping := child_reset (b.parent_hashes.foldl
                    (fun cm p => child_insert cm p b.hash) d.children_mapping) b.hash } := by
  cases hfind : b.parent_hashes.find? (fun p => (lookup_block d p).isNone) with
  | some p =>
    exfalso
    simp only [add_block, hfind] at hok
    cases hok
  | none =>
    constructor
    · intro p hp
      have hni := List.find?_eq_none.mp hfind p hp
      cases hl : lookup_block d p with
      | none => exact absurd (by rw [hl]; rfl) hni
      | some blk => rfl
    · simp only [add_block, hfind]

theorem add_block_fresh_spec (d : BlockDAG) (b : Block)
    (hfresh : lookup_block d b.hash = none)
    (hok : (add_block d b).2 = none)
    (hcl : closed_parents d)
    (hac : ∀ x, ¬ Relation.TransGen (block_edge d) x x) :
    closed_parents (add_block d b).1
    ∧ (∀ x, ¬ Relation.TransGen (block_edge (add_block d b).1) x x)
    ∧ (add_block d b).1.blocks.length = d.blocks.length + 1 := by
  obtain ⟨hpar, hshape⟩ := add_block_ok_shape d b hok
  have hanyf : d.blocks.any (fun x => x.hash == b.hash) = false := by
    rw [any_hash_eq_isSome]
    show (lookup_block d b.hash).isSome = false
    rw [hfresh]
    rfl
  have hins : insert_block d.blocks b = d.blocks ++ [b] := by
    unfold insert_block
    rw [hanyf]
    rw [if_neg (by simp)]
  set mid : BlockDAG :=
    { d with blocks := insert_block d.blocks b,
             children_mapping := child_reset (b.parent_hashes.foldl
                (fun cm p => child_insert cm p b.hash) d.children_mapping) b.hash }
    with hMid
  have hmidlook : ∀ h, lookup_block mid h
      = (lookup_block d h).or (if b.hash == h then some b else none) := by
    intro h
    show mid.blocks.find? (fun x => x.hash == h) = _
    rw [hMid]
    show (insert_block d.blocks b).find? (fun x => x.hash == h) = _
    rw [hins, lookup_append_block]
    rfl
  have hmid_old : ∀ h blk, lookup_block d h = some blk → lookup_block mid h = some blk := by
    intro h blk hl
    rw [hmidlook, hl]
    rfl
  have hmid_new : lookup_block mid b.hash = some b := by
    rw [hmidlook, hfresh]
    have : (b.hash == b.hash) = true := by simp
    simp [this]
  have hmid_ne : ∀ h, h ≠ b.hash → lookup_block mid h = lookup_block d h := by
    intro h hne
    rw [hmidlook]
    have : (b.hash == h) = false := by
      simp
      exact fun hc => hne hc.symm
    rw [this]
    show (lookup_block d h).or none = lookup_block d h
    cases lookup_block d h <;> rfl
  have hmid_isSome : ∀ h, (lookup_block d h).isSome = true →
      (lookup_block mid h).isSome = true := by
    intro h hs
    cases hl : lookup_block d h with
    | none => rw [hl] at hs; cases hs
    | some blk => rw [hmid_old h blk hl]; rfl
  have hclmid : closed_parents mid := by
    intro u ps hups p hp
    cases hlu : lookup_block d u with
    | some blk =>
      rw [hmid_old u blk hlu, Option.map_some'] at hups
      injection hups with hups
      apply hmid_isSome
      apply hcl u ps _ p hp
      rw [hlu, Option.map_some', hups]
    | none =>
      rw [hmidlook, hlu] at hups
      by_cases hbu : b.hash = u
      · have hc : (b.hash == u) = true := by simp [hbu]
        rw [hc] at hups
        have hups' : b.parent_hashes = ps := by
          have : (some b).map (fun b => b.parent_hashes) = some ps := hups
          rw [Option.map_some'] at this
          injection this
        apply hmid_isSome
        apply hpar
        rw [hups']
        exact hp
      · have hc : (b.hash == u) = false := by simp [hbu]
        cases hups' : ((none : Option Block).or
            (if (b.hash == u) = true then some b else none)) with
        | none =>
          rw [hups'] at hups
          cases hups
        | some blk =>
          rw [hc] at hups'
          cases hups'
  have hnoedge : ∀ u, ¬ block_edge mid u b.hash := by
    rintro u ⟨ps, hps, hmem⟩
    cases hlu : lookup_block d u with
    | some blk =>
      rw [hmid_old u blk hlu, Option.map_some'] at hps
      injection hps with hps
      have hsome := hcl u ps (by rw [hlu, Option.map_some', hps]) b.hash hmem
      rw [hfresh] at hsome
      cases hsome
    | none =>
      rw [hmidlook, hlu] at hps
      by_cases hbu : b.hash = u
      · have hc : (b.hash == u) = true := by simp [hbu]
        rw [hc] at hps
        have hps' : b.parent_hashes = ps := by
          have : (some b).map (fun b => b.parent_hashes) = some ps := hps
          rw [Option.map_some'] at this
          injection this
        have hsome := hpar b.hash (by rw [hps']; exact hmem)
        rw [hfresh] at hsome
        cases hsome
      · have hc : (b.hash == u) = false := by simp [hbu]
        cases hps2 : ((none : Option Block).or
            (if (b.hash == u) = true then some b else none)) with
        | none =>
          rw [hps2] at hps
          cases hps
        | some blk =>
          rw [hc] at hps2
          cases hps2
  have hproj : ∀ u v, block_edge mid u v → u ≠ b.hash →
      block_edge d u v ∧ v ≠ b.hash := by
    rintro u v ⟨ps, hps, hmem⟩ hu
    have hv : v ≠ b.hash := by
      intro hveq
      exact hnoedge u ⟨ps, hps, hveq ▸ hmem⟩
    refine ⟨⟨ps, ?_, hmem⟩, hv⟩
    rw [hmid_ne u hu] at hps
    exact hps
  have htrans : ∀ x y, Relation.TransGen (block_edge mid) x y → x ≠ b.hash →
      Relation.TransGen (block_edge d) x y ∧ y ≠ b.hash := by
    intro x y hT
    induction hT with
    | single h =>
      intro hx
      obtain ⟨hd, hy⟩ := hproj _ _ h hx
      exact ⟨Relation.TransGen.single hd, hy⟩
    | tail hTG h ih =>
      intro hx
      obtain ⟨hTd, hz⟩ := ih hx
      obtain ⟨hd, hy⟩ := hproj _ _ h hz
      exact ⟨Relation.TransGen.tail hTd hd, hy⟩
  have hacmid : ∀ x, ¬ Relation.TransGen (block_edge mid) x x := by
    intro x hT
    by_cases hx : x = b.hash
    · subst hx
      cases hT with
      | single h => exact hnoedge _ h
      | tail hTG h => exact hnoedge _ h
    · exact hac x (htrans x x hT hx).1
  have hedge : ∀ u v, block_edge (add_block d b).1 u v ↔ block_edge mid u v := by
    intro u v
    unfold block_edge
    rw [hshape]
    rw [(update_ordering_parents mid u).1]
  refine ⟨?_, ?_, ?_⟩
  · intro u ps hups p hp
    rw [hshape] at hups ⊢
    rw [(update_ordering_parents mid u).1] at hups
    rw [(update_ordering_parents mid p).2]
    exact hclmid u ps hups p hp
  · intro x hT
    apply hacmid x
    exact Relation.TransGen.mono (fun u v h => (hedge u v).mp h) hT
  · rw [hshape, update_ordering_length]
    show (insert_block d.blocks b).length = d.blocks.length + 1
    rw [hins, List.length_append]
    rfl

/-- Build a DAG by a sequence of insertions, failing when an insertion
fails or re-uses an existing hash. -/
def build_fresh_go : BlockDAG → List Block → Option BlockDAG
  | d, [] => some d
  | d, b :: bs =>
    if (lookup_block d b.hash).isSome then none
    else match add_block d b with
      | (d', none) => build_fresh_go d' bs
      | (_, some _) => none

/-- Build a DAG from genesis by fresh insertions. -/
def build_fresh (k : Nat) (bs : List Block) : Option BlockDAG :=
  build_fresh_go (BlockDAG.new k) bs

theorem build_go_spec : ∀ (bs : List Block) (d0 d : BlockDAG),
    build_fresh_go d0 bs = some d →
    closed_parents d0 → (∀ x, ¬ Relation.TransGen (block_edge d0) x x) →
    closed_parents d ∧ (∀ x, ¬ Relation.TransGen (block_edge d) x x)
      ∧ d.blocks.length = d0.blocks.length + bs.length := by
  intro bs
  induction bs with
  | nil =>
    intro d0 d hb hcl hac
    injection hb with hb
    subst hb
    exact ⟨hcl, hac, rfl⟩
  | cons b tl ih =>
    intro d0 d hb hcl hac
    unfold build_fresh_go at hb
    by_cases hf : (lookup_block d0 b.hash).isSome = true
    · rw [if_pos hf] at hb
      cases hb
    · rw [if_neg hf] at hb
      have hfresh : lookup_block d0 b.hash = none := by
        cases hl : lookup_block d0 b.hash with
        | none => rfl
        | some blk => exact absurd (by rw [hl]; rfl) hf
      cases hab : add_block d0 b with
      | mk d1 e =>
        rw [hab] at hb
        cases e with
        | some msg => cases hb
        | none =>
          have hok : (add_block d0 b).2 = none := by rw [hab]
          obtain ⟨hcl1, hac1, hlen1⟩ := add_block_fresh_spec d0 b hfresh hok hcl hac
          rw [hab] at hcl1 hac1 hlen1
          obtain ⟨hcl2, hac2, hlen2⟩ := ih d1 d hb hcl1 hac1
          refine ⟨hcl2, hac2, ?_⟩
          rw [hlen2, hlen1]
          simp only [List.length_cons]
          omega

/-- C9 (amended).  For every `k` and every sequence of successful
`add_block` calls in which each block references only already present
parents *and carries a hash not already present in the DAG*, the parent
relation of the final state contains no cycle, and `get_all_blocks`
counts exactly the insertions plus the genesis block. -/
theorem claim_C9 (k : Nat) (bs : List Block) (d : BlockDAG)
    (hbuild : build_fresh k bs = some d) :
    (∀ x, ¬ Relation.TransGen (block_edge d) x x)
    ∧ (get_all_blocks d).length = bs.length + 1 := by
  have hcl0 : closed_parents (BlockDAG.new k) := by
    intro u ps hups p hp
    cases hl : lookup_block (BlockDAG.new k) u with
    | none =>
      rw [hl] at hups
      cases hups
    | some blk =>
      have hmem := List.mem_of_find?_eq_some hl
      have hgen : blk = Block.genesis := List.mem_singleton.mp hmem
      rw [hl, Option.map_some', hgen] at hups
      injection hups with hups
      rw [← hups] at hp
      cases hp
  have hnoe : ∀ u v, ¬ block_edge (BlockDAG.new k) u v := by
    rintro u v ⟨ps, hps, hmem⟩
    cases hl : lookup_block (BlockDAG.new k) u with
    | none =>
      rw [hl] at hps
      cases hps
    | some blk =>
      have hgen : blk = Block.genesis := List.mem_singleton.mp (List.mem_of_find?_eq_some hl)
      rw [hl, Option.map_some', hgen] at hps
      injection hps with hps
      rw [← hps] at hmem
      cases hmem
  have hac0 : ∀ x, ¬ Relation.TransGen (block_edge (BlockDAG.new k)) x x := by
    intro x hT
    cases hT with
    | single h => exact hnoe _ _ h
    | tail _ h => exact hnoe _ _ h
  obtain ⟨_, hac, hlen⟩ := build_go_spec bs (BlockDAG.new k) d hbuild hcl0 hac0
  refine ⟨hac, ?_⟩
  show d.blocks.length = bs.length + 1
  rw [hlen]
  show 1 + bs.length = bs.length + 1
  omega

/-- Witness for C9 at a concrete input. -/
theorem claim_C9_witness :
    (∀ x, ¬ Relation.TransGen
        (block_edge (add_block (BlockDAG.new 1) ( Block.mk' "b1" ["genesis"] [] 1)).1) x x)
    ∧ (get_all_blocks (add_block (BlockDAG.new 1) ( Block.mk' "b1" ["genesis"] [] 1)).1).length
        = 1 + 1 :=
  claim_C9 1 [ Block.mk' "b1" ["genesis"] [] 1] _ (by decide)

/-! ### C3: the blue-candidate classifier and the anticone -/

/-- C3.  For every candidate block present in the DAG and every reference
set `blue_set`, the classifier answers true exactly when the number of
anticone members that are themselves in `blue_set` is at most `k`, and
the anticone it uses is exactly the set of reference-set members that are
neither the candidate itself nor its ancestors nor its descendants. -/
theorem claim_C3 (d : BlockDAG) (fa fd : Nat) (candidate : String)
    (blue_set : List String)
    (hc : (lookup_block d candidate).isSome = true) :
    (is_blue_candidate (core_of d) (children_of d) d.k fa fd candidate blue_set = true
      ↔ ((get_anticone (core_of d) (children_of d) fa fd candidate blue_set).filter
          (fun h => blue_set.contains h)).length ≤ d.k)
    ∧ get_anticone (core_of d) (children_of d) fa fd candidate blue_set
        = blue_set.filter (fun x => decide (x ≠ candidate
            ∧ x ∉ get_ancestors (core_of d) fa candidate
            ∧ x ∉ get_descendants (children_of d) fd candidate)) := by
  have hcs : (core_of d candidate).isSome = true := by
    show ((lookup_block d candidate).map _).isSome = true
    cases hl : lookup_block d candidate with
    | none => rw [hl] at hc; simp at hc
    | some b => rfl
  constructor
  · cases hcg : core_of d candidate with
    | none =>
      rw [hcg] at hcs
      simp at hcs
    | some v =>
      simp only [is_blue_candidate, hcg]
      rw [Nat.ble_eq]
  · unfold get_anticone
    apply List.filter_congr
    intro x hx
    by_cases h1 : x = candidate
    · simp [h1]
    · by_cases h2 : x ∈ get_ancestors (core_of d) fa candidate
      · simp [h1, h2]
      · by_cases h3 : x ∈ get_descendants (children_of d) fd candidate
        · simp [h1, h2, h3]
        · simp [h1, h2, h3]

/-- Witness for C3 at a concrete input. -/
theorem claim_C3_witness :
    (lookup_block (BlockDAG.new 1) "genesis").isSome = true
    ∧ ((is_blue_candidate (core_of (BlockDAG.new 1)) (children_of (BlockDAG.new 1))
          (BlockDAG.new 1).k 1 1 "genesis" ["genesis"] = true
        ↔ ((get_anticone (core_of (BlockDAG.new 1)) (children_of (BlockDAG.new 1)) 1 1
            "genesis" ["genesis"]).filter
              (fun h => (["genesis"] : List String).contains h)).length
            ≤ (BlockDAG.new 1).k)
      ∧ get_anticone (core_of (BlockDAG.new 1)) (children_of (BlockDAG.new 1)) 1 1
          "genesis" ["genesis"]
        = (["genesis"] : List String).filter (fun x => decide (x ≠ "genesis"
            ∧ x ∉ get_ancestors (core_of (BlockDAG.new 1)) 1 "genesis"
            ∧ x ∉ get_descendants (children_of (BlockDAG.new 1)) 1 "genesis"))) :=
  ⟨by decide, claim_C3 (BlockDAG.new 1) 1 1 "genesis" ["genesis"] (by decide)⟩

/-! ### C2: the Kahn loop pops every hash at most once -/

/-- Number of recorded in-degree decrements of `x` after the blocks of
`P` have been popped: one per popped block listing `x` as a child. -/
def dcnt (childrenF : String → List String) (P : List String) (x : String) : Nat :=
  P.countP (fun p => decide (x ∈ childrenF p))

/-- One child update of the release pass (the body of the fold in
`child_pass`). -/
def child_step (core : Core) (st : List Entry × (String → Nat)) (child : String) :
    List Entry × (String → Nat) :=
  match core child with
  | none => st
  | some (ps, ts) =>
    let v := (st.2 child + (2 ^ 64 - 1)) % 2 ^ 64
    let deg' : String → Nat := fun x => if x == child then v else st.2 x
    if v == 0 then (st.1 ++ [(ps.length, ts, child)], deg') else (st.1, deg')

theorem child_pass_eq (core : Core) (childrenF : String → List String)
    (cur : String) (heap : List Entry) (deg : String → Nat) :
    child_pass core childrenF cur heap deg
      = (childrenF cur).foldl (child_step core) (heap, deg) := rfl

set_option maxRecDepth 4096 in
theorem child_fold_spec (core : Core) :
    ∀ (cs : List String) (heap : List Entry) (deg : String → Nat), cs.Nodup →
      (∀ x, (cs.foldl (child_step core) (heap, deg)).2 x
          = if x ∈ cs ∧ (core x).isSome = true
            then (deg x + (2 ^ 64 - 1)) % 2 ^ 64 else deg x)
      ∧ ∃ news : List Entry,
          (cs.foldl (child_step core) (heap, deg)).1 = heap ++ news
          ∧ news.map (fun e => e.2.2)
              = cs.filter (fun x => (core x).isSome
                  && ((deg x + (2 ^ 64 - 1)) % 2 ^ 64 == 0)) := by
  intro cs
  induction cs with
  | nil =>
    intro heap deg _
    constructor
    · intro x
      simp
    · exact ⟨[], by simp, by simp⟩
  | cons c cs ih =>
    intro heap deg hnd
    rw [List.nodup_cons] at hnd
    obtain ⟨hcn, hnd2⟩ := hnd
    rw [List.foldl_cons]
    cases hcc : core c with
    | none =>
      have hstep : child_step core (heap, deg) c = (heap, deg) := by
        simp [child_step, hcc]
      rw [hstep]
      obtain ⟨hdeg, news, hheap, hmap⟩ := ih heap deg hnd2
      constructor
      · intro x
        rw [hdeg x]
        by_cases hs : (core x).isSome = true
        · by_cases hx : x ∈ cs
          · simp [hx, hs]
          · have hxc : x ≠ c := by
              intro hh
              rw [hh] at hs
              rw [hcc] at hs
              simp at hs
            simp [hx, hs, hxc]
        · simp [hs]
      · refine ⟨news, hheap, ?_⟩
        have hpc : ((core c).isSome
            && ((deg c + (2 ^ 64 - 1)) % 2 ^ 64 == 0)) = false := by
          rw [hcc]
          rfl
        rw [show List.filter (fun x => (core x).isSome
            && ((deg x + (2 ^ 64 - 1)) % 2 ^ 64 == 0)) (c :: cs)
          = List.filter (fun x => (core x).isSome
            && ((deg x + (2 ^ 64 - 1)) % 2 ^ 64 == 0)) cs from
          List.filter_cons_of_neg (by rw [hpc]; exact Bool.false_ne_true)]
        exact hmap
    | some pr =>
      obtain ⟨ps, ts⟩ := pr
      have hcs : (core c).isSome = true := by
        rw [hcc]
        rfl
      by_cases h0 : (((deg c + (2 ^ 64 - 1)) % 2 ^ 64) == 0) = true
      · have hstep : child_step core (heap, deg) c
            = (heap ++ [(ps.length, ts, c)],
                fun x => if x == c then (deg c + (2 ^ 64 - 1)) % 2 ^ 64 else deg x) := by
          simp only [child_step, hcc]
          rw [if_pos h0]
        rw [hstep]
        obtain ⟨hdeg, news, hheap, hmap⟩ := ih (heap ++ [(ps.length, ts, c)])
          (fun x => if x == c then (deg c + (2 ^ 64 - 1)) % 2 ^ 64 else deg x) hnd2
        constructor
        · intro x
          rw [hdeg x]
          by_cases hx : x ∈ cs
          · have hxc : x ≠ c := fun hh => hcn (hh ▸ hx)
            have hbx : (x == c) = false := by
              simp [hxc]
            by_cases hs : (core x).isSome = true
            · simp [hbx, hx, hs]
            · simp [hbx, hs]
          · by_cases hxc : x = c
            · simp [hxc, hcn, hcs]
            · have hbx : (x == c) = false := by
                simp [hxc]
              simp [hx, hxc, hbx]
        · refine ⟨(ps.length, ts, c) :: news, ?_, ?_⟩
          · rw [hheap]
            rw [List.append_assoc]
            rfl
          · rw [List.map_cons, hmap]
            have hpc : ((core c).isSome
                && ((deg c + (2 ^ 64 - 1)) % 2 ^ 64 == 0)) = true := by
              rw [hcc]
              simp only [Option.isSome_some, Bool.true_and]
              exact h0
            rw [show List.filter (fun x => (core x).isSome
                && ((deg x + (2 ^ 64 - 1)) % 2 ^ 64 == 0)) (c :: cs)
              = c :: List.filter (fun x => (core x).isSome
                && ((deg x + (2 ^ 64 - 1)) % 2 ^ 64 == 0)) cs from
              List.filter_cons_of_pos hpc]
            have htail : List.filter (fun x => (core x).isSome
                && (((if (x == c) = true then (deg c + (2 ^ 64 - 1)) % 2 ^ 64 else deg x)
                  + (2 ^ 64 - 1)) % 2 ^ 64 == 0)) cs
              = List.filter (fun x => (core x).isSome
                && ((deg x + (2 ^ 64 - 1)) % 2 ^ 64 == 0)) cs := by
              apply List.filter_congr
              intro x hx
              have hxc : x ≠ c := fun hh => hcn (hh ▸ hx)
              have hbx : (x == c) = false := by
                simp [hxc]
              rw [hbx]
              simp
            rw [htail]
      · have hstep : child_step core (heap, deg) c
            = (heap,
                fun x => if x == c then (deg c + (2 ^ 64 - 1)) % 2 ^ 64 else deg x) := by
          simp only [child_step, hcc]
          rw [if_neg h0]
        rw [hstep]
        obtain ⟨hdeg, news, hheap, hmap⟩ := ih heap
          (fun x => if x == c then (deg c + (2 ^ 64 - 1)) % 2 ^ 64 else deg x) hnd2
        constructor
        · intro x
          rw [hdeg x]
          by_cases hx : x ∈ cs
          · have hxc : x ≠ c := fun hh => hcn (hh ▸ hx)
            have hbx : (x == c) = false := by
              simp [hxc]
            by_cases hs : (core x).isSome = true
            · simp [hbx, hx, hs]
            · simp [hbx, hs]
          · by_cases hxc : x = c
            · simp [hxc, hcn, hcs]
            · have hbx : (x == c) = false := by
                simp [hxc]
              simp [hx, hxc, hbx]
        · refine ⟨news, hheap, ?_⟩
          rw [hmap]
          have hpc : ((core c).isSome
              && ((deg c + (2 ^ 64 - 1)) % 2 ^ 64 == 0)) = false := by
            rw [hcc]
            simp only [Option.isSome_some, Bool.true_and]
            exact Bool.eq_false_iff.mpr h0
          rw [show List.filter (fun x => (core x).isSome
              && ((deg x + (2 ^ 64 - 1)) % 2 ^ 64 == 0)) (c :: cs)
            = List.filter (fun x => (core x).isSome
              && ((deg x + (2 ^ 64 - 1)) % 2 ^ 64 == 0)) cs from
            List.filter_cons_of_neg (by rw [hpc]; exact Bool.false_ne_true)]
          apply List.filter_congr
          intro x hx
          have hxc : x ≠ c := fun hh => hcn (hh ▸ hx)
          have hbx : (x == c) = false := by
            simp [hxc]
          rw [hbx]
          simp

theorem child_pass_spec (core : Core) (childrenF : String → List String)
    (cur : String) (heap : List Entry) (deg : String → Nat)
    (hnd : (childrenF cur).Nodup) :
    (∀ x, (child_pass core childrenF cur heap deg).2 x
        = if x ∈ childrenF cur ∧ (core x).isSome = true
          then (deg x + (2 ^ 64 - 1)) % 2 ^ 64 else deg x)
    ∧ ∃ news : List Entry,
        (child_pass core childrenF cur heap deg).1 = heap ++ news
        ∧ news.map (fun e => e.2.2)
            = (childrenF cur).filter (fun x => (core x).isSome
                && ((deg x + (2 ^ 64 - 1)) % 2 ^ 64 == 0)) := by
  rw [child_pass_eq]
  exact child_fold_spec core (childrenF cur) heap deg hnd

theorem remove_entry_shape : ∀ (l : List Entry) (e : Entry), e ∈ l →
    ∃ l1 l2, l = l1 ++ e :: l2 ∧ remove_entry l e = l1 ++ l2 := by
  intro l
  induction l with
  | nil => intro e he; cases he
  | cons x xs ih =>
    intro e he
    by_cases hx : (x == e) = true
    · have hxe : x = e := beq_iff_eq.mp hx
      refine ⟨[], xs, ?_, ?_⟩
      · rw [hxe]
        rfl
      · show remove_entry (x :: xs) e = xs
        simp [remove_entry, hx]
    · have hne : x ≠ e := fun hh => hx (by rw [hh]; exact beq_self_eq_true e)
      have hexs : e ∈ xs := by
        rcases List.mem_cons.mp he with h | h
        · exact absurd h.symm hne
        · exact h
      obtain ⟨l1, l2, hl, hr⟩ := ih e hexs
      refine ⟨x :: l1, l2, ?_, ?_⟩
      · rw [List.cons_append, ← hl]
      · show remove_entry (x :: xs) e = x :: l1 ++ l2
        simp only [remove_entry]
        rw [if_neg hx, hr]
        rfl

theorem heap_max_mem : ∀ (l : List Entry) (e : Entry),
    heap_max e l = e ∨ heap_max e l ∈ l := by
  intro l
  induction l with
  | nil => intro e; exact Or.inl rfl
  | cons y ys ih =>
    intro e
    have hstep : heap_max e (y :: ys) = heap_max (if entry_lt e y then y else e) ys := rfl
    rw [hstep]
    rcases ih (if entry_lt e y then y else e) with h | h
    · rw [h]
      by_cases hc : entry_lt e y = true
      · rw [if_pos hc]
        exact Or.inr (List.mem_cons_self _ _)
      · rw [if_neg hc]
        exact Or.inl rfl
    · exact Or.inr (List.mem_cons_of_mem _ h)

theorem pop_max_shape (heap : List Entry) (e : Entry) (rest : List Entry)
    (hp : pop_max heap = some (e, rest)) :
    ∃ l1 l2, heap = l1 ++ e :: l2 ∧ rest = l1 ++ l2 := by
  cases heap with
  | nil => cases hp
  | cons a l =>
    simp only [pop_max] at hp
    injection hp with hpr
    have h1 : e = heap_max a l := (congrArg Prod.fst hpr).symm
    have h2 : rest = remove_entry (a :: l) e := by
      have hsnd : remove_entry (a :: l) (heap_max a l) = rest := congrArg Prod.snd hpr
      rw [← hsnd, ← h1]
    have hmem : e ∈ a :: l := by
      rcases heap_max_mem l a with h | h
      · rw [h1, h]
        exact List.mem_cons_self _ _
      · rw [h1]
        exact List.mem_cons_of_mem _ h
    obtain ⟨l1, l2, hl, hr⟩ := remove_entry_shape (a :: l) e hmem
    exact ⟨l1, l2, hl, by rw [h2, hr]⟩

/-- The invariant of the GHOSTDAG Kahn loop, over the ghost list `P` of
already popped hashes: the heap holds distinct, present, not-yet-popped
hashes; the emitted order is a subset of the popped hashes without
repetition; every in-degree equals its initial value decremented (with
the `usize` wrap-around) once per popped parent listing it as a child;
and every hash ever pushed (other than the unconditionally seeded
genesis) had its counter reach zero at some decrement in the past. -/
structure KahnInv (core : Core) (childrenF : String → List String)
    (heap : List Entry) (deg : String → Nat) (P ordered : List String) : Prop where
  heap_nodup : (heap.map (fun e => e.2.2)).Nodup
  p_nodup : P.Nodup
  heap_p_disj : ∀ x ∈ heap.map (fun e => e.2.2), x ∉ P
  ord_nodup : ordered.Nodup
  ord_sub : ∀ x ∈ ordered, x ∈ P
  heap_some : ∀ x ∈ heap.map (fun e => e.2.2), (core x).isSome = true
  p_some : ∀ x ∈ P, (core x).isSome = true
  deg_zero : ∀ x, (core x).isSome = true → dcnt childrenF P x = 0 →
    deg x = init_deg core x
  deg_pos : ∀ x, (core x).isSome = true → 1 ≤ dcnt childrenF P x →
    deg x = (init_deg core x + (2 ^ 64 - 1) * dcnt childrenF P x) % 2 ^ 64
  pushed_hit : ∀ x, (x ∈ heap.map (fun e => e.2.2) ∨ x ∈ P) → x ≠ "genesis" →
    ∃ j, 1 ≤ j ∧ j ≤ dcnt childrenF P x
      ∧ (init_deg core x + (2 ^ 64 - 1) * j) % 2 ^ 64 = 0

theorem kahn_hit_unique (a j1 j2 : Nat) (h1 : (a + (2 ^ 64 - 1) * j1) % 2 ^ 64 = 0)
    (h2 : (a + (2 ^ 64 - 1) * j2) % 2 ^ 64 = 0) (hlt : j1 < j2) : 2 ^ 64 ≤ j2 - j1 := by
  omega

theorem dcnt_append (childrenF : String → List String) (P : List String)
    (cur x : String) :
    dcnt childrenF (P ++ [cur]) x
      = dcnt childrenF P x + (if x ∈ childrenF cur then 1 else 0) := by
  unfold dcnt
  rw [List.countP_append]
  congr 1
  by_cases h : x ∈ childrenF cur
  · simp [h]
  · simp [h]

theorem dcnt_le (childrenF : String → List String) (P : List String) (x : String) :
    dcnt childrenF P x ≤ P.length := List.countP_le_length _

theorem kahn_step (core : Core) (childrenF : String → List String)
    (hchn : ∀ p, (childrenF p).Nodup)
    (hchg : ∀ p, "genesis" ∉ childrenF p)
    (heap : List Entry) (deg : String → Nat) (P ordered : List String)
    (e : Entry) (heap2 : List Entry)
    (hinv : KahnInv core childrenF heap deg P ordered)
    (hp : pop_max heap = some (e, heap2))
    (hbound : P.length + 1 < 2 ^ 64)
    (ordered2 : List String)
    (hord : ordered2 = ordered ∨ ordered2 = ordered ++ [e.2.2]) :
    KahnInv core childrenF
      (child_pass core childrenF e.2.2 heap2 deg).1
      (child_pass core childrenF e.2.2 heap2 deg).2
      (P ++ [e.2.2]) ordered2 := by
  obtain ⟨l1, l2, hheap, hrest⟩ := pop_max_shape heap e heap2 hp
  have hperm : List.Perm (heap.map (fun y => y.2.2))
      (e.2.2 :: heap2.map (fun y => y.2.2)) := by
    rw [hheap, hrest, List.map_append, List.map_append, List.map_cons]
    exact List.perm_middle
  have hndcons : (e.2.2 :: heap2.map (fun y => y.2.2)).Nodup :=
    hperm.nodup hinv.heap_nodup
  rw [List.nodup_cons] at hndcons
  obtain ⟨hcur2, hnd2⟩ := hndcons
  have hcur_in : e.2.2 ∈ heap.map (fun y => y.2.2) :=
    hperm.mem_iff.mpr (List.mem_cons_self _ _)
  have hmem2 : ∀ x ∈ heap2.map (fun y => y.2.2), x ∈ heap.map (fun y => y.2.2) := by
    intro x hx
    exact hperm.mem_iff.mpr (List.mem_cons_of_mem _ hx)
  have hcurP : e.2.2 ∉ P := hinv.heap_p_disj _ hcur_in
  have hcur_some : (core e.2.2).isSome = true := hinv.heap_some _ hcur_in
  obtain ⟨hdeg2, news, hheap2, hnews⟩ :=
    child_pass_spec core childrenF e.2.2 heap2 deg (hchn _)
  have hdc : ∀ x, dcnt childrenF (P ++ [e.2.2]) x
      = dcnt childrenF P x + (if x ∈ childrenF e.2.2 then 1 else 0) :=
    fun x => dcnt_append childrenF P e.2.2 x
  have hnewsmem : ∀ x ∈ news.map (fun y => y.2.2),
      x ∈ childrenF e.2.2 ∧ (core x).isSome = true
        ∧ (deg x + (2 ^ 64 - 1)) % 2 ^ 64 = 0 := by
    intro x hx
    rw [hnews] at hx
    have hxf := List.mem_filter.mp hx
    refine ⟨hxf.1, (Bool.and_eq_true_iff.mp hxf.2).1, ?_⟩
    have hb := (Bool.and_eq_true_iff.mp hxf.2).2
    exact beq_iff_eq.mp hb
  have hnorepush : ∀ x ∈ news.map (fun y => y.2.2),
      ¬ (x ∈ heap.map (fun y => y.2.2) ∨ x ∈ P) := by
    intro x hx hold
    obtain ⟨hxcs, hxs, hxv⟩ := hnewsmem x hx
    have hxg : x ≠ "genesis" := fun hh => hchg e.2.2 (hh ▸ hxcs)
    obtain ⟨j, hj1, hj2, hjhit⟩ := hinv.pushed_hit x hold hxg
    have hdcp : 1 ≤ dcnt childrenF P x := le_trans hj1 hj2
    have hdx : deg x
        = (init_deg core x + (2 ^ 64 - 1) * dcnt childrenF P x) % 2 ^ 64 :=
      hinv.deg_pos x hxs hdcp
    have hhit2 : (init_deg core x
        + (2 ^ 64 - 1) * (dcnt childrenF P x + 1)) % 2 ^ 64 = 0 := by
      omega
    have hge := kahn_hit_unique (init_deg core x) j (dcnt childrenF P x + 1) hjhit hhit2
      (by omega)
    have hle := dcnt_le childrenF P x
    omega
  constructor
  · rw [hheap2, List.map_append, List.nodup_append]
    refine ⟨hnd2, ?_, ?_⟩
    · rw [hnews]
      exact (hchn _).filter _
    · intro x hx hxn
      exact hnorepush x hxn (Or.inl (hmem2 x hx))
  · rw [List.nodup_append]
    refine ⟨hinv.p_nodup, List.nodup_singleton _, ?_⟩
    intro x hx hx2
    rw [List.mem_singleton] at hx2
    rw [hx2] at hx
    exact hcurP hx
  · intro x hx
    rw [hheap2, List.map_append] at hx
    intro hxP
    rcases List.mem_append.mp hxP with hP | hc
    · rcases List.mem_append.mp hx with h2 | hn
      · exact hinv.heap_p_disj x (hmem2 x h2) hP
      · exact hnorepush x hn (Or.inr hP)
    · rw [List.mem_singleton] at hc
      rcases List.mem_append.mp hx with h2 | hn
      · rw [hc] at h2
        exact hcur2 h2
      · rw [hc] at hn
        exact hnorepush _ hn (Or.inl hcur_in)
  · rcases hord with h | h
    · rw [h]
      exact hinv.ord_nodup
    · rw [h, List.nodup_append]
      refine ⟨hinv.ord_nodup, List.nodup_singleton _, ?_⟩
      intro x hx hx2
      rw [List.mem_singleton] at hx2
      rw [hx2] at hx
      exact hcurP (hinv.ord_sub _ hx)
  · intro x hx
    rcases hord with h | h
    · rw [h] at hx
      exact List.mem_append_left _ (hinv.ord_sub x hx)
    · rw [h] at hx
      rcases List.mem_append.mp hx with h1 | h2
      · exact List.mem_append_left _ (hinv.ord_sub x h1)
      · exact List.mem_append_right _ h2
  · intro x hx
    rw [hheap2, List.map_append] at hx
    rcases List.mem_append.mp hx with h2 | hn
    · exact hinv.heap_some x (hmem2 x h2)
    · exact (hnewsmem x hn).2.1
  · intro x hx
    rcases List.mem_append.mp hx with h1 | h2
    · exact hinv.p_some x h1
    · rw [List.mem_singleton] at h2
      rw [h2]
      exact hcur_some
  · intro x hxs hd0
    rw [hdeg2 x]
    rw [hdc x] at hd0
    by_cases hxc : x ∈ childrenF e.2.2
    · rw [if_pos hxc] at hd0
      exact absurd hd0 (Nat.succ_ne_zero _)
    · rw [if_neg hxc] at hd0
      rw [if_neg (fun hpair => hxc hpair.1)]
      exact hinv.deg_zero x hxs (by omega)
  · intro x hxs hd1
    rw [hdeg2 x, hdc x]
    rw [hdc x] at hd1
    by_cases hxc : x ∈ childrenF e.2.2
    · rw [if_pos hxc] at hd1 ⊢
      rw [if_pos ⟨hxc, hxs⟩]
      by_cases hd0 : dcnt childrenF P x = 0
      · have hdz := hinv.deg_zero x hxs hd0
        omega
      · have hge : 1 ≤ dcnt childrenF P x := Nat.one_le_iff_ne_zero.mpr hd0
        have hdp := hinv.deg_pos x hxs hge
        omega
    · rw [if_neg hxc] at hd1 ⊢
      rw [if_neg (fun hpair => hxc hpair.1)]
      exact hinv.deg_pos x hxs (by omega)
  · intro x hx hxg
    have hmono : dcnt childrenF P x ≤ dcnt childrenF (P ++ [e.2.2]) x := by
      rw [hdc x]
      omega
    rcases hx with hh | hP
    · rw [hheap2, List.map_append] at hh
      rcases List.mem_append.mp hh with h2 | hn
      · obtain ⟨j, hj1, hj2, hjhit⟩ :=
          hinv.pushed_hit x (Or.inl (hmem2 x h2)) hxg
        exact ⟨j, hj1, le_trans hj2 hmono, hjhit⟩
      · obtain ⟨hxcs, hxs, hxv⟩ := hnewsmem x hn
        refine ⟨dcnt childrenF P x + 1, by omega, ?_, ?_⟩
        · rw [hdc x, if_pos hxcs]
        · by_cases hd0 : dcnt childrenF P x = 0
          · have hdz := hinv.deg_zero x hxs hd0
            omega
          · have hge : 1 ≤ dcnt childrenF P x := Nat.one_le_iff_ne_zero.mpr hd0
            have hdp := hinv.deg_pos x hxs hge
            omega
    · rcases List.mem_append.mp hP with h1 | h2
      · obtain ⟨j, hj1, hj2, hjhit⟩ := hinv.pushed_hit x (Or.inr h1) hxg
        exact ⟨j, hj1, le_trans hj2 hmono, hjhit⟩
      · rw [List.mem_singleton] at h2
        obtain ⟨j, hj1, hj2, hjhit⟩ :=
          hinv.pushed_hit x (Or.inl (h2 ▸ hcur_in)) hxg
        exact ⟨j, hj1, le_trans hj2 hmono, hjhit⟩

theorem ghostdag_go_succ (core : Core) (childrenF : String → List String)
    (k fa fd fuel : Nat) (heap : List Entry) (deg : String → Nat)
    (bs ordered : List String) :
    ghostdag_go core childrenF k fa fd (fuel + 1) heap deg bs ordered
      = match pop_max heap with
        | none => ordered
        | some (e, heap2) =>
          ghostdag_go core childrenF k fa fd fuel
            (child_pass core childrenF e.2.2 heap2 deg).1
            (child_pass core childrenF e.2.2 heap2 deg).2
            (if (e.2.2 == "genesis"
                || is_blue_candidate core childrenF k fa fd e.2.2 bs)
              then (if bs.contains e.2.2 then bs else bs ++ [e.2.2]) else bs)
            (if (e.2.2 == "genesis"
                || is_blue_candidate core childrenF k fa fd e.2.2 bs)
              then ordered ++ [e.2.2] else ordered) := by
  cases hp : pop_max heap with
  | none =>
    show (match pop_max heap with
      | none => ordered
      | some (e, heap2) => _) = _
    rw [hp]
  | some pr =>
    obtain ⟨e, heap2⟩ := pr
    show (match pop_max heap with
      | none => ordered
      | some (e, heap2) => _) = _
    rw [hp]

theorem kahn_main (core : Core) (childrenF : String → List String)
    (hchn : ∀ p, (childrenF p).Nodup)
    (hchg : ∀ p, "genesis" ∉ childrenF p)
    (k fa fd : Nat) :
    ∀ (fuel : Nat) (heap : List Entry) (deg : String → Nat)
      (bs ordered P : List String),
      KahnInv core childrenF heap deg P ordered →
      P.length + fuel ≤ 2 ^ 64 - 1 →
      ∃ ext, ghostdag_go core childrenF k fa fd fuel heap deg bs ordered
          = ordered ++ ext
        ∧ (ordered ++ ext).Nodup
        ∧ ∀ x ∈ ordered ++ ext, (core x).isSome = true := by
  intro fuel
  induction fuel with
  | zero =>
    intro heap deg bs ordered P hinv hb
    refine ⟨[], by rw [List.append_nil]; rfl, ?_, ?_⟩
    · rw [List.append_nil]
      exact hinv.ord_nodup
    · rw [List.append_nil]
      intro x hx
      exact hinv.p_some x (hinv.ord_sub x hx)
  | succ fuel ih =>
    intro heap deg bs ordered P hinv hb
    rw [ghostdag_go_succ]
    cases hp : pop_max heap with
    | none =>
      refine ⟨[], by rw [List.append_nil], ?_, ?_⟩
      · rw [List.append_nil]
        exact hinv.ord_nodup
      · rw [List.append_nil]
        intro x hx
        exact hinv.p_some x (hinv.ord_sub x hx)
    | some pr =>
      obtain ⟨e, heap2⟩ := pr
      show ∃ ext, ghostdag_go core childrenF k fa fd fuel
          (child_pass core childrenF e.2.2 heap2 deg).1
          (child_pass core childrenF e.2.2 heap2 deg).2
          (if (e.2.2 == "genesis" || is_blue_candidate core childrenF k fa fd e.2.2 bs)
            then (if bs.contains e.2.2 then bs else bs ++ [e.2.2]) else bs)
          (if (e.2.2 == "genesis" || is_blue_candidate core childrenF k fa fd e.2.2 bs)
            then ordered ++ [e.2.2] else ordered) = ordered ++ ext
        ∧ (ordered ++ ext).Nodup ∧ ∀ x ∈ ordered ++ ext, (core x).isSome = true
      have hb1 : P.length + 1 < 2 ^ 64 := by omega
      have hb2 : (P ++ [e.2.2]).length + fuel ≤ 2 ^ 64 - 1 := by
        rw [List.length_append]
        simp only [List.length_singleton]
        omega
      by_cases hib : (e.2.2 == "genesis"
          || is_blue_candidate core childrenF k fa fd e.2.2 bs) = true
      · rw [if_pos hib, if_pos hib]
        have hinv2 := kahn_step core childrenF hchn hchg heap deg P ordered e heap2
          hinv hp hb1 (ordered ++ [e.2.2]) (Or.inr rfl)
        obtain ⟨ext2, hgo, hnd, hsome⟩ := ih
          (child_pass core childrenF e.2.2 heap2 deg).1
          (child_pass core childrenF e.2.2 heap2 deg).2
          (if bs.contains e.2.2 then bs else bs ++ [e.2.2])
          (ordered ++ [e.2.2]) (P ++ [e.2.2]) hinv2 hb2
        have hape : (ordered ++ [e.2.2]) ++ ext2 = ordered ++ e.2.2 :: ext2 := by
          rw [List.append_assoc]
          rfl
        refine ⟨e.2.2 :: ext2, ?_, ?_, ?_⟩
        · rw [hgo, hape]
        · rw [← hape]
          exact hnd
        · rw [← hape]
          exact hsome
      · rw [if_neg hib, if_neg hib]
        have hinv2 := kahn_step core childrenF hchn hchg heap deg P ordered e heap2
          hinv hp hb1 ordered (Or.inl rfl)
        exact ih (child_pass core childrenF e.2.2 heap2 deg).1
          (child_pass core childrenF e.2.2 heap2 deg).2
          bs ordered (P ++ [e.2.2]) hinv2 hb2

theorem ghostdag_sort_spec (d : BlockDAG)
    (hg : (lookup_block d "genesis").isSome = true)
    (hchn : ∀ p, (children_of d p).Nodup)
    (hchg : ∀ p, "genesis" ∉ children_of d p)
    (hlen : d.blocks.length + 1 ≤ 2 ^ 64 - 1) :
    ∃ ext, ghostdag_sort d = "genesis" :: ext
      ∧ ("genesis" :: ext).Nodup
      ∧ ∀ x ∈ ("genesis" :: ext), (lookup_block d x).isSome = true := by
  obtain ⟨gb, hgb⟩ := Option.isSome_iff_exists.mp hg
  have hcg : core_of d "genesis" = some (gb.parent_hashes, gb.timestamp) := by
    show (lookup_block d "genesis").map _ = _
    rw [hgb]
    rfl
  have hsort : ghostdag_sort d
      = ghostdag_go (core_of d) (children_of d) d.k (bfs_fuel d) (bfs_fuel d)
          (d.blocks.length + 1)
          [(gb.parent_hashes.length, gb.timestamp, "genesis")]
          (init_deg (core_of d)) [] [] := by
    show ghostdag_go (core_of d) (children_of d) d.k (bfs_fuel d) (bfs_fuel d)
        (d.blocks.length + 1)
        (match core_of d "genesis" with
          | some (ps, ts) => [(ps.length, ts, "genesis")]
          | none => [])
        (init_deg (core_of d)) [] [] = _
    rw [hcg]
  have hpop : pop_max [((gb.parent_hashes.length : Nat), gb.timestamp, "genesis")]
      = some (((gb.parent_hashes.length : Nat), gb.timestamp, "genesis"), []) := by
    simp [pop_max, heap_max, remove_entry]
  have hinv0 : KahnInv (core_of d) (children_of d)
      [((gb.parent_hashes.length : Nat), gb.timestamp, "genesis")]
      (init_deg (core_of d)) [] [] := by
    constructor
    · simp
    · exact List.nodup_nil
    · intro x hx
      simp
    · exact List.nodup_nil
    · intro x hx
      cases hx
    · intro x hx
      rw [List.map_singleton, List.mem_singleton] at hx
      rw [hx, hcg]
      rfl
    · intro x hx
      cases hx
    · intro x hxs hd0
      rfl
    · intro x hxs hd1
      have hz : dcnt (children_of d) [] x = 0 := rfl
      rw [hz] at hd1
      exact absurd hd1 (by omega)
    · intro x hx hxg
      exfalso
      rcases hx with h | h
      · rw [List.map_singleton, List.mem_singleton] at h
        exact hxg h
      · cases h
  have hstep1 : ghostdag_sort d
      = ghostdag_go (core_of d) (children_of d) d.k (bfs_fuel d) (bfs_fuel d)
          d.blocks.length
          (child_pass (core_of d) (children_of d) "genesis" [] (init_deg (core_of d))).1
          (child_pass (core_of d) (children_of d) "genesis" [] (init_deg (core_of d))).2
          ["genesis"] ["genesis"] := by
    rw [hsort, ghostdag_go_succ, hpop]
    rfl
  have hinv1 : KahnInv (core_of d) (children_of d)
      (child_pass (core_of d) (children_of d) "genesis" [] (init_deg (core_of d))).1
      (child_pass (core_of d) (children_of d) "genesis" [] (init_deg (core_of d))).2
      ["genesis"] ["genesis"] :=
    kahn_step (core_of d) (children_of d) hchn hchg
      [((gb.parent_hashes.length : Nat), gb.timestamp, "genesis")]
      (init_deg (core_of d)) [] []
      ((gb.parent_hashes.length : Nat), gb.timestamp, "genesis") [] hinv0 hpop
      (by show (0 : Nat) + 1 < 2 ^ 64; omega) ["genesis"] (Or.inr rfl)
  obtain ⟨ext, hgo, hnd, hsome⟩ := kahn_main (core_of d) (children_of d) hchn hchg
    d.k (bfs_fuel d) (bfs_fuel d) d.blocks.length
    (child_pass (core_of d) (children_of d) "genesis" [] (init_deg (core_of d))).1
    (child_pass (core_of d) (children_of d) "genesis" [] (init_deg (core_of d))).2
    ["genesis"] ["genesis"] ["genesis"] hinv1
    (by show 1 + d.blocks.length ≤ 2 ^ 64 - 1; omega)
  refine ⟨ext, ?_, ?_, ?_⟩
  · rw [hstep1, hgo]
    rfl
  · exact hnd
  · intro x hx
    have hxs := hsome x hx
    cases hl : lookup_block d x with
    | none =>
      have hcn : core_of d x = none := by
        show (lookup_block d x).map _ = none
        rw [hl]
        rfl
      rw [hcn] at hxs
      cases hxs
    | some b => rfl


/-! ### C2: the weight-assignment pass in closed form -/

theorem indexOf_cons_ne_str (a b : String) (l : List String) (h : b ≠ a) :
    (b :: l).indexOf a = l.indexOf a + 1 := by
  rw [List.indexOf_cons]
  have hb : (b == a) = false := by
    simp [h]
  rw [hb]
  rfl

theorem assign_weights_closed : ∀ (os : List String) (bs : List Block) (w : Nat),
    os.Nodup →
    (∀ x ∈ os, bs.any (fun blk => blk.hash == x) = true) →
    (assign_weights os bs w).1
      = bs.map (fun blk =>
          if blk.hash ∈ os
          then { blk with color := BlockColor.Blue,
                          weight := w + os.indexOf blk.hash + 1 }
          else blk) := by
  intro os
  induction os with
  | nil =>
    intro bs w _ _
    show bs = _
    have hmapid : bs.map (fun blk =>
        if blk.hash ∈ ([] : List String)
        then { blk with color := BlockColor.Blue,
                        weight := w + List.indexOf blk.hash [] + 1 }
        else blk) = bs.map (fun blk => blk) := by
      apply List.map_congr_left
      intro a _
      rw [if_neg (List.not_mem_nil a.hash)]
    rw [hmapid]
    simp
  | cons h0 os ih =>
    intro bs w hnd hall
    rw [List.nodup_cons] at hnd
    obtain ⟨h0n, hnd2⟩ := hnd
    rw [assign_weights_cons]
    have hany : bs.any (fun blk => blk.hash == h0) = true :=
      hall h0 (List.mem_cons_self _ _)
    rw [if_pos hany, if_pos hany]
    have hall2 : ∀ x ∈ os, (bs.map (fun blk => if blk.hash == h0 then
        { blk with color := BlockColor.Blue, weight := w + 1 } else blk)).any
          (fun blk => blk.hash == x) = true := by
      intro x hx
      rw [any_hash_eq_isSome, find?_hash_map bs _ (fun blk => by
        by_cases hbb : blk.hash = h0 <;> simp [hbb]) x]
      have hx2 := hall x (List.mem_cons_of_mem h0 hx)
      rw [any_hash_eq_isSome] at hx2
      cases hf : bs.find? (fun blk => blk.hash == x) with
      | none =>
        rw [hf] at hx2
        cases hx2
      | some a => rfl
    rw [ih _ (w + 1) hnd2 hall2, List.map_map]
    apply List.map_congr_left
    intro a _
    show (fun blk =>
        if blk.hash ∈ os
        then { blk with color := BlockColor.Blue,
                        weight := w + 1 + os.indexOf blk.hash + 1 }
        else blk) (if a.hash == h0 then
          { a with color := BlockColor.Blue, weight := w + 1 } else a)
      = _
    by_cases hb0 : a.hash = h0
    · have hbeq : (a.hash == h0) = true := by
        simp [hb0]
      rw [if_pos hbeq]
      show (if a.hash ∈ os then _ else _) = _
      rw [if_neg (by rw [hb0]; exact h0n)]
      have hmem : a.hash ∈ h0 :: os := by
        rw [hb0]
        exact List.mem_cons_self _ _
      rw [if_pos hmem]
      have hidx : (h0 :: os).indexOf a.hash = 0 := by
        rw [hb0]
        exact List.indexOf_cons_self _ _
      rw [hidx]
    · have hbeq : (a.hash == h0) = false := by
        simp [hb0]
      rw [if_neg (by rw [hbeq]; exact Bool.false_ne_true)]
      show (if a.hash ∈ os
          then { a with color := BlockColor.Blue,
                        weight := w + 1 + os.indexOf a.hash + 1 }
          else a)
        = (if a.hash ∈ h0 :: os
          then { a with color := BlockColor.Blue,
                        weight := w + (h0 :: os).indexOf a.hash + 1 }
          else a)
      by_cases hmem : a.hash ∈ os
      · rw [if_pos hmem, if_pos (List.mem_cons_of_mem h0 hmem)]
        have hidx : (h0 :: os).indexOf a.hash = os.indexOf a.hash + 1 :=
          indexOf_cons_ne_str a.hash h0 os (fun hh => hb0 hh.symm)
        rw [hidx]
        have harith : w + 1 + os.indexOf a.hash + 1
            = w + (os.indexOf a.hash + 1) + 1 := by
          omega
        rw [harith]
      · rw [if_neg hmem]
        have hmem2 : ¬ a.hash ∈ h0 :: os := by
          intro hh
          rcases List.mem_cons.mp hh with h | h
          · exact hb0 h
          · exact hmem h
        rw [if_neg hmem2]

/-! ### C2: the stable weight sort -/

theorem insort_weight_perm (b : Block) : ∀ l : List Block,
    List.Perm (insort_weight b l) (b :: l) := by
  intro l
  induction l with
  | nil => exact List.Perm.refl _
  | cons x xs ih =>
    show (if Nat.ble x.weight b.weight then x :: insort_weight b xs
        else b :: x :: xs).Perm _
    by_cases hc : Nat.ble x.weight b.weight = true
    · rw [if_pos hc]
      exact (ih.cons x).trans (List.Perm.swap b x xs)
    · rw [if_neg hc]

theorem sort_fold_perm : ∀ (l acc : List Block),
    List.Perm (l.foldl (fun a b => insort_weight b a) acc) (acc ++ l) := by
  intro l
  induction l with
  | nil =>
    intro acc
    rw [List.foldl_nil, List.append_nil]
  | cons b l ih =>
    intro acc
    rw [List.foldl_cons]
    refine (ih (insort_weight b acc)).trans ?_
    refine (((insort_weight_perm b acc).append_right l).trans ?_)
    show ((b :: acc) ++ l).Perm (acc ++ b :: l)
    exact List.perm_middle.symm

theorem sort_by_weight_perm (l : List Block) :
    List.Perm (sort_by_weight l) l := by
  have := sort_fold_perm l []
  exact this

theorem insort_weight_sorted (b : Block) : ∀ l : List Block,
    l.Pairwise (fun a c => a.weight ≤ c.weight) →
    (insort_weight b l).Pairwise (fun a c => a.weight ≤ c.weight) := by
  intro l
  induction l with
  | nil =>
    intro _
    exact List.pairwise_singleton _ _
  | cons x xs ih =>
    intro hp
    rw [List.pairwise_cons] at hp
    obtain ⟨hx, hxs⟩ := hp
    show (if Nat.ble x.weight b.weight then x :: insort_weight b xs
        else b :: x :: xs).Pairwise _
    by_cases hc : Nat.ble x.weight b.weight = true
    · rw [if_pos hc]
      rw [List.pairwise_cons]
      refine ⟨?_, ih hxs⟩
      intro c hcmem
      have hcm := (insort_weight_perm b xs).mem_iff.mp hcmem
      rcases List.mem_cons.mp hcm with h | h
      · rw [h]
        exact Nat.le_of_ble_eq_true hc
      · exact hx c h
    · rw [if_neg hc]
      have hbx : b.weight ≤ x.weight := by
        have h2 : ¬ (Nat.ble x.weight b.weight = true) := hc
        rw [Nat.ble_eq] at h2
        omega
      rw [List.pairwise_cons]
      refine ⟨?_, List.pairwise_cons.mpr ⟨hx, hxs⟩⟩
      intro c hcmem
      rcases List.mem_cons.mp hcmem with h | h
      · rw [h]
        exact hbx
      · exact le_trans hbx (hx c h)

theorem sort_fold_sorted : ∀ (l acc : List Block),
    acc.Pairwise (fun a c => a.weight ≤ c.weight) →
    (l.foldl (fun a b => insort_weight b a) acc).Pairwise
      (fun a c => a.weight ≤ c.weight) := by
  intro l
  induction l with
  | nil =>
    intro acc h
    rw [List.foldl_nil]
    exact h
  | cons b l ih =>
    intro acc h
    rw [List.foldl_cons]
    exact ih _ (insort_weight_sorted b acc h)

theorem sort_by_weight_sorted (l : List Block) :
    (sort_by_weight l).Pairwise (fun a c => a.weight ≤ c.weight) :=
  sort_fold_sorted l [] (List.Pairwise.nil)

/-! ### C2: nodup index enumeration -/

theorem indexOf_map_range : ∀ (os : List String), os.Nodup → ∀ w,
    os.map (fun h => w + os.indexOf h + 1) = List.range' (w + 1) os.length := by
  intro os
  induction os with
  | nil =>
    intro _ w
    rfl
  | cons h0 os ih =>
    intro hnd w
    rw [List.nodup_cons] at hnd
    obtain ⟨h0n, hnd2⟩ := hnd
    show (w + (h0 :: os).indexOf h0 + 1)
        :: os.map (fun h => w + (h0 :: os).indexOf h + 1)
      = List.range' (w + 1) (os.length + 1)
    rw [List.range'_succ]
    congr 1
    · rw [List.indexOf_cons_self]
    · have hpt : os.map (fun h => w + (h0 :: os).indexOf h + 1)
          = os.map (fun h => (w + 1) + os.indexOf h + 1) := by
        apply List.map_congr_left
        intro a ha
        have hne : a ≠ h0 := fun hh => h0n (hh ▸ ha)
        rw [indexOf_cons_ne_str a h0 os (fun hh => hne hh.symm)]
        omega
      rw [hpt, ih hnd2 (w + 1)]

theorem range'_get_some (s n i : Nat) (h : i < n) :
    (List.range' s n).get? i = some (s + i) := by
  rw [List.get?_eq_getElem?, List.getElem?_range']
  · simp
  · exact h

/-! ### C2: the full reclassification produces weights 1, 2, 3, … -/

theorem update_ordering_blue_spec (d1 : BlockDAG)
    (hnd : (d1.blocks.map (fun x => x.hash)).Nodup)
    (hg : (lookup_block d1 "genesis").isSome = true)
    (hchn : ∀ p, (children_of d1 p).Nodup)
    (hchg : ∀ p, "genesis" ∉ children_of d1 p)
    (hlen : d1.blocks.length + 1 ≤ 2 ^ 64 - 1) :
    (∀ blk ∈ (update_ghostdag_ordering d1).blocks,
        blk.color = BlockColor.Red → blk.weight = 0)
    ∧ ((get_ordered_blue_blocks (update_ghostdag_ordering d1)).map (fun x => x.weight)
        = List.range' 1 (get_ordered_blue_blocks (update_ghostdag_ordering d1)).length)
    ∧ ((get_ordered_blue_blocks (update_ghostdag_ordering d1)).map (fun x => x.hash)
        = ghostdag_sort (update_ghostdag_ordering d1))
    ∧ (∃ g, lookup_block (update_ghostdag_ordering d1) "genesis" = some g
        ∧ g.color = BlockColor.Blue ∧ g.weight = 1) := by
  obtain ⟨ext, hos, hosnd, hossome⟩ := ghostdag_sort_spec d1 hg hchn hchg hlen
  have hosnodup : (ghostdag_sort d1).Nodup := by
    rw [hos]
    exact hosnd
  have hossub : ∀ x ∈ ghostdag_sort d1, (lookup_block d1 x).isSome = true := by
    intro x hx
    rw [hos] at hx
    exact hossome x hx
  have hall : ∀ x ∈ ghostdag_sort d1,
      ((d1.blocks.map (fun x => { x with color := BlockColor.Red, weight := 0 })).any
        (fun blk => blk.hash == x)) = true := by
    intro x hx
    rw [any_hash_eq_isSome, find?_hash_map d1.blocks
      (fun x => { x with color := BlockColor.Red, weight := 0 }) (fun blk => rfl) x]
    have hs := hossub x hx
    cases hl : d1.blocks.find? (fun blk => blk.hash == x) with
    | none =>
      rw [show lookup_block d1 x = none from hl] at hs
      cases hs
    | some a => rfl
  have hcf : (update_ghostdag_ordering d1).blocks
      = d1.blocks.map (fun x => if x.hash ∈ ghostdag_sort d1
          then { x with color := BlockColor.Blue, weight := 0 + (ghostdag_sort d1).indexOf x.hash + 1 }
          else { x with color := BlockColor.Red, weight := 0 }) := by
    show (assign_weights (ghostdag_sort d1) (d1.blocks.map (fun x =>
        { x with color := BlockColor.Red, weight := 0 })) 0).1 = _
    rw [assign_weights_closed (ghostdag_sort d1) _ 0 hosnodup hall, List.map_map]
    rfl
  have hlk : ∀ x, lookup_block (update_ghostdag_ordering d1) x
      = (lookup_block d1 x).map (fun b => if b.hash ∈ ghostdag_sort d1
          then { b with color := BlockColor.Blue, weight := 0 + (ghostdag_sort d1).indexOf b.hash + 1 }
          else { b with color := BlockColor.Red, weight := 0 }) := by
    intro x
    show ((update_ghostdag_ordering d1).blocks).find? (fun b => b.hash == x) = _
    rw [hcf]
    exact find?_hash_map d1.blocks _ (fun blk => by
      by_cases hm : blk.hash ∈ ghostdag_sort d1 <;> simp [hm]) x
  have hfm : (update_ghostdag_ordering d1).blocks.filter
        (fun x => x.color == BlockColor.Blue)
      = (d1.blocks.filter (fun x => decide (x.hash ∈ ghostdag_sort d1))).map
          (fun x => { x with color := BlockColor.Blue, weight := 0 + (ghostdag_sort d1).indexOf x.hash + 1 }) := by
    rw [hcf, List.filter_map]
    have hpc : d1.blocks.filter ((fun x : Block => x.color == BlockColor.Blue) ∘
        (fun x : Block => if x.hash ∈ ghostdag_sort d1
          then { x with color := BlockColor.Blue, weight := 0 + (ghostdag_sort d1).indexOf x.hash + 1 }
          else { x with color := BlockColor.Red, weight := 0 }))
        = d1.blocks.filter (fun x => decide (x.hash ∈ ghostdag_sort d1)) := by
      apply List.filter_congr
      intro a _
      by_cases hm : a.hash ∈ ghostdag_sort d1
      · simp [Function.comp, hm]
      · simp [Function.comp, hm]
    rw [hpc]
    apply List.map_congr_left
    intro a ha
    have hm : a.hash ∈ ghostdag_sort d1 := by
      have h2 := (List.mem_filter.mp ha).2
      simpa using h2
    simp [hm]
  have hselh : (d1.blocks.filter (fun x => decide (x.hash ∈ ghostdag_sort d1))).map
        (fun x => x.hash)
      = (d1.blocks.map (fun x => x.hash)).filter
          (fun h => decide (h ∈ ghostdag_sort d1)) := by
    rw [List.filter_map]
    rfl
  have hperm_sel : List.Perm ((d1.blocks.filter
        (fun x => decide (x.hash ∈ ghostdag_sort d1))).map (fun x => x.hash))
      (ghostdag_sort d1) := by
    rw [hselh]
    apply (List.perm_ext_iff_of_nodup (hnd.filter _) hosnodup).mpr
    intro a
    constructor
    · intro ha
      have h2 := (List.mem_filter.mp ha).2
      simpa using h2
    · intro ha
      apply List.mem_filter.mpr
      refine ⟨?_, by simpa using ha⟩
      have hsx := hossub a ha
      obtain ⟨bb, hbb⟩ := Option.isSome_iff_exists.mp hsx
      have hmem := List.mem_of_find?_eq_some hbb
      have hhash : bb.hash = a := by
        have h3 := List.find?_some hbb
        simpa using h3
      rw [← hhash]
      exact List.mem_map_of_mem _ hmem
  have hlenEq : (d1.blocks.filter
        (fun x => decide (x.hash ∈ ghostdag_sort d1))).length
      = (ghostdag_sort d1).length := by
    have h1 := hperm_sel.length_eq
    rw [List.length_map] at h1
    exact h1
  have hLperm : List.Perm (get_ordered_blue_blocks (update_ghostdag_ordering d1))
      ((d1.blocks.filter (fun x => decide (x.hash ∈ ghostdag_sort d1))).map
        (fun x => { x with color := BlockColor.Blue, weight := 0 + (ghostdag_sort d1).indexOf x.hash + 1 })) := by
    show List.Perm (sort_by_weight ((update_ghostdag_ordering d1).blocks.filter
        (fun x => x.color == BlockColor.Blue))) _
    rw [hfm]
    exact sort_by_weight_perm _
  have hLsorted : (get_ordered_blue_blocks (update_ghostdag_ordering d1)).Pairwise
      (fun a c => a.weight ≤ c.weight) :=
    sort_by_weight_sorted ((update_ghostdag_ordering d1).blocks.filter
      (fun x => x.color == BlockColor.Blue))
  have hweights : ((d1.blocks.filter (fun x => decide (x.hash ∈ ghostdag_sort d1))).map
        (fun x => { x with color := BlockColor.Blue, weight := 0 + (ghostdag_sort d1).indexOf x.hash + 1 })).map (fun x => x.weight)
      = ((d1.blocks.filter (fun x => decide (x.hash ∈ ghostdag_sort d1))).map
          (fun x => x.hash)).map (fun h => 0 + (ghostdag_sort d1).indexOf h + 1) := by
    rw [List.map_map, List.map_map]
    rfl
  have hwperm : List.Perm ((get_ordered_blue_blocks (update_ghostdag_ordering d1)).map
        (fun x => x.weight)) (List.range' 1 (ghostdag_sort d1).length) := by
    refine (hLperm.map (fun x => x.weight)).trans ?_
    rw [hweights]
    refine (hperm_sel.map (fun h => 0 + (ghostdag_sort d1).indexOf h + 1)).trans ?_
    rw [indexOf_map_range (ghostdag_sort d1) hosnodup 0]
  have hwsorted : ((get_ordered_blue_blocks (update_ghostdag_ordering d1)).map
      (fun x => x.weight)).Pairwise (fun a c => a ≤ c) :=
    List.pairwise_map.mpr hLsorted
  have hrsorted : (List.range' 1 (ghostdag_sort d1).length).Pairwise
      (fun a c => a ≤ c) :=
    (List.pairwise_lt_range' 1 (ghostdag_sort d1).length).imp le_of_lt
  have hweq : (get_ordered_blue_blocks (update_ghostdag_ordering d1)).map
      (fun x => x.weight) = List.range' 1 (ghostdag_sort d1).length :=
    List.eq_of_perm_of_sorted hwperm hwsorted hrsorted
  have hLlen : (get_ordered_blue_blocks (update_ghostdag_ordering d1)).length
      = (ghostdag_sort d1).length := by
    have h1 := hLperm.length_eq
    rw [List.length_map] at h1
    rw [h1, hlenEq]
  have hcoreq : core_of (update_ghostdag_ordering d1) = core_of d1 := by
    funext x
    show (lookup_block (update_ghostdag_ordering d1) x).map _
      = (lookup_block d1 x).map _
    rw [hlk x]
    cases hl : lookup_block d1 x with
    | none => rfl
    | some bb =>
      by_cases hm : bb.hash ∈ ghostdag_sort d1
      · simp [hm]
      · simp [hm]
  have hpls : (update_ghostdag_ordering d1).blocks.map (fun b => b.parent_hashes.length)
      = d1.blocks.map (fun b => b.parent_hashes.length) := by
    rw [hcf, List.map_map]
    apply List.map_congr_left
    intro a _
    by_cases hm : a.hash ∈ ghostdag_sort d1
    · simp [Function.comp, hm]
    · simp [Function.comp, hm]
  have hsorteq : ghostdag_sort (update_ghostdag_ordering d1) = ghostdag_sort d1 := by
    apply ghostdag_sort_ext
    · rfl
    · exact hcoreq
    · rfl
    · exact update_ordering_length d1
    · unfold bfs_fuel
      rw [update_ordering_length, hpls]
      rfl
  refine ⟨?_, ?_, ?_, ?_⟩
  · intro blk hblk hred
    rw [hcf] at hblk
    obtain ⟨y, hy, hyeq⟩ := List.mem_map.mp hblk
    by_cases hin : y.hash ∈ ghostdag_sort d1
    · rw [if_pos hin] at hyeq
      rw [← hyeq] at hred
      simp at hred
    · rw [if_neg hin] at hyeq
      rw [← hyeq]
  · rw [hweq, hLlen]
  · rw [hsorteq]
    apply List.ext_get
    · rw [List.length_map, hLlen]
    · intro i h1 h2
      have hiL : i < (get_ordered_blue_blocks (update_ghostdag_ordering d1)).length := by
        rw [List.length_map] at h1
        exact h1
      have hgetmap : ((get_ordered_blue_blocks (update_ghostdag_ordering d1)).map
            (fun x => x.hash)).get ⟨i, h1⟩
          = ((get_ordered_blue_blocks (update_ghostdag_ordering d1)).get ⟨i, hiL⟩).hash := by
        simp
      rw [hgetmap]
      have hq : ((get_ordered_blue_blocks (update_ghostdag_ordering d1)).map
            (fun x => x.weight)).get? i
          = (List.range' 1 (ghostdag_sort d1).length).get? i := by
        rw [hweq]
      rw [List.get?_map, List.get?_eq_get hiL, Option.map_some',
        range'_get_some 1 _ i h2] at hq
      injection hq with hq
      have hbm : (get_ordered_blue_blocks (update_ghostdag_ordering d1)).get ⟨i, hiL⟩
          ∈ (d1.blocks.filter (fun x => decide (x.hash ∈ ghostdag_sort d1))).map
            (fun x => { x with color := BlockColor.Blue, weight := 0 + (ghostdag_sort d1).indexOf x.hash + 1 }) :=
        hLperm.mem_iff.mp (List.get_mem _ i hiL)
      obtain ⟨y, hy, hyeq⟩ := List.mem_map.mp hbm
      have hyhash : y.hash ∈ ghostdag_sort d1 := by
        have h3 := (List.mem_filter.mp hy).2
        simpa using h3
      have hw2 : ((get_ordered_blue_blocks (update_ghostdag_ordering d1)).get
            ⟨i, hiL⟩).weight
          = 0 + (ghostdag_sort d1).indexOf y.hash + 1 := by
        rw [← hyeq]
      have hh2 : ((get_ordered_blue_blocks (update_ghostdag_ordering d1)).get
            ⟨i, hiL⟩).hash = y.hash := by
        rw [← hyeq]
      have hidx : (ghostdag_sort d1).indexOf y.hash = i := by
        rw [hq] at hw2
        omega
      have hlt : (ghostdag_sort d1).indexOf y.hash < (ghostdag_sort d1).length :=
        List.indexOf_lt_length.mpr hyhash
      have hgidx := List.indexOf_get hlt
      have hfin : (⟨(ghostdag_sort d1).indexOf y.hash, hlt⟩
          : Fin (ghostdag_sort d1).length) = ⟨i, h2⟩ := Fin.ext hidx
      rw [hfin] at hgidx
      rw [hh2, ← hgidx]
  · obtain ⟨gb, hgb⟩ := Option.isSome_iff_exists.mp hg
    have hgbh : gb.hash = "genesis" := by
      have h3 := List.find?_some hgb
      simpa using h3
    have hm : gb.hash ∈ ghostdag_sort d1 := by
      rw [hgbh, hos]
      exact List.mem_cons_self _ _
    refine ⟨(fun b : Block => if b.hash ∈ ghostdag_sort d1
        then { b with color := BlockColor.Blue, weight := 0 + (ghostdag_sort d1).indexOf b.hash + 1 }
        else { b with color := BlockColor.Red, weight := 0 }) gb, ?_, ?_, ?_⟩
    · rw [hlk "genesis", show lookup_block d1 "genesis" = some gb from hgb]
      rfl
    · simp [hm]
    · show (Block.weight (if gb.hash ∈ ghostdag_sort d1
          then { gb with color := BlockColor.Blue, weight := 0 + (ghostdag_sort d1).indexOf gb.hash + 1 }
          else { gb with color := BlockColor.Red, weight := 0 })) = 1
      rw [if_pos hm]
      show 0 + (ghostdag_sort d1).indexOf gb.hash + 1 = 1
      rw [hgbh, hos, List.indexOf_cons_self]

/-! ### C2: well-formed states and preservation across a fresh insert -/

/-- The decidable well-formedness of a DAG state: distinct block hashes,
a present genesis, duplicate-free children sets never listing genesis,
and a block count safely below the `usize` wrap-around. -/
def WF (d : BlockDAG) : Prop :=
  (d.blocks.map (fun x => x.hash)).Nodup
  ∧ (lookup_block d "genesis").isSome = true
  ∧ (∀ e ∈ d.children_mapping, e.2.Nodup)
  ∧ (∀ e ∈ d.children_mapping, "genesis" ∉ e.2)
  ∧ d.blocks.length + 2 ≤ 2 ^ 64 - 1

theorem insert_block_fresh (l : List Block) (b : Block)
    (hfresh : l.find? (fun x => x.hash == b.hash) = none) :
    insert_block l b = l ++ [b] := by
  have ha : l.any (fun x => x.hash == b.hash) = false := by
    rw [any_hash_eq_isSome, hfresh]
    rfl
  unfold insert_block
  rw [ha]
  exact if_neg Bool.false_ne_true

theorem d1_hash_nodup (d : BlockDAG) (b : Block)
    (hnd : (d.blocks.map (fun x => x.hash)).Nodup)
    (hfresh : lookup_block d b.hash = none) :
    ((insert_block d.blocks b).map (fun x => x.hash)).Nodup := by
  rw [insert_block_fresh d.blocks b hfresh, List.map_append, List.nodup_append]
  refine ⟨hnd, List.nodup_singleton _, ?_⟩
  intro x hx hx2
  rw [List.map_singleton, List.mem_singleton] at hx2
  obtain ⟨y, hy, hyh⟩ := List.mem_map.mp hx
  have hni := List.find?_eq_none.mp hfresh y hy
  apply hni
  rw [hyh, hx2]
  simp

theorem d1_genesis (d : BlockDAG) (b : Block)
    (hg : (lookup_block d "genesis").isSome = true)
    (hfresh : lookup_block d b.hash = none) :
    ((insert_block d.blocks b).find? (fun x => x.hash == "genesis")).isSome = true := by
  rw [insert_block_fresh d.blocks b hfresh, List.find?_append]
  obtain ⟨gb, hgb⟩ := Option.isSome_iff_exists.mp hg
  rw [show d.blocks.find? (fun x => x.hash == "genesis") = some gb from hgb]
  rfl

theorem child_insert_keeps (cm : List (String × List String)) (p c : String)
    (hn : ∀ e ∈ cm, e.2.Nodup) (hgn : ∀ e ∈ cm, "genesis" ∉ e.2)
    (hc : c ≠ "genesis") :
    (∀ e ∈ child_insert cm p c, e.2.Nodup)
    ∧ (∀ e ∈ child_insert cm p c, "genesis" ∉ e.2) := by
  constructor <;> intro e he <;> obtain ⟨e0, he0, heq⟩ := List.mem_map.mp he
  · by_cases hp : (e0.1 == p) = true
    · rw [if_pos hp] at heq
      rw [← heq]
      by_cases hcon : e0.2.contains c = true
      · rw [if_pos hcon]
        exact hn e0 he0
      · rw [if_neg hcon]
        show (e0.2 ++ [c]).Nodup
        rw [List.nodup_append]
        refine ⟨hn e0 he0, List.nodup_singleton _, ?_⟩
        intro x hx hx2
        rw [List.mem_singleton] at hx2
        rw [hx2] at hx
        apply hcon
        simp [hx]
    · rw [if_neg hp] at heq
      rw [← heq]
      exact hn e0 he0
  · by_cases hp : (e0.1 == p) = true
    · rw [if_pos hp] at heq
      rw [← heq]
      by_cases hcon : e0.2.contains c = true
      · rw [if_pos hcon]
        exact hgn e0 he0
      · rw [if_neg hcon]
        show ¬ "genesis" ∈ e0.2 ++ [c]
        intro hx
        rcases List.mem_append.mp hx with h1 | h1
        · exact hgn e0 he0 h1
        · rw [List.mem_singleton] at h1
          exact hc h1.symm
    · rw [if_neg hp] at heq
      rw [← heq]
      exact hgn e0 he0

theorem child_fold_keeps (ps : List String) :
    ∀ (cm : List (String × List String)) (c : String),
      (∀ e ∈ cm, e.2.Nodup) → (∀ e ∈ cm, "genesis" ∉ e.2) → c ≠ "genesis" →
      (∀ e ∈ ps.foldl (fun cm2 p => child_insert cm2 p c) cm, e.2.Nodup)
      ∧ (∀ e ∈ ps.foldl (fun cm2 p => child_insert cm2 p c) cm, "genesis" ∉ e.2) := by
  induction ps with
  | nil =>
    intro cm c h1 h2 _
    exact ⟨h1, h2⟩
  | cons p ps ih =>
    intro cm c h1 h2 hc
    rw [List.foldl_cons]
    obtain ⟨h1a, h2a⟩ := child_insert_keeps cm p c h1 h2 hc
    exact ih (child_insert cm p c) c h1a h2a hc

theorem child_reset_keeps (cm : List (String × List String)) (h : String)
    (hn : ∀ e ∈ cm, e.2.Nodup) (hgn : ∀ e ∈ cm, "genesis" ∉ e.2) :
    (∀ e ∈ child_reset cm h, e.2.Nodup)
    ∧ (∀ e ∈ child_reset cm h, "genesis" ∉ e.2) := by
  unfold child_reset
  by_cases hc : cm.any (fun e => e.1 == h) = true
  · rw [if_pos hc]
    constructor <;> intro e he <;> obtain ⟨e0, he0, heq⟩ := List.mem_map.mp he
    · by_cases hp : (e0.1 == h) = true
      · rw [if_pos hp] at heq
        rw [← heq]
        exact List.nodup_nil
      · rw [if_neg hp] at heq
        rw [← heq]
        exact hn e0 he0
    · by_cases hp : (e0.1 == h) = true
      · rw [if_pos hp] at heq
        rw [← heq]
        exact List.not_mem_nil _
      · rw [if_neg hp] at heq
        rw [← heq]
        exact hgn e0 he0
  · rw [if_neg hc]
    constructor <;> intro e he <;> rcases List.mem_append.mp he with h1 | h1
    · exact hn e h1
    · rw [List.mem_singleton] at h1
      rw [h1]
      exact List.nodup_nil
    · exact hgn e h1
    · rw [List.mem_singleton] at h1
      rw [h1]
      exact List.not_mem_nil _

theorem children_of_entries (d : BlockDAG)
    (hn : ∀ e ∈ d.children_mapping, e.2.Nodup)
    (hgn : ∀ e ∈ d.children_mapping, "genesis" ∉ e.2) :
    (∀ p, (children_of d p).Nodup) ∧ (∀ p, "genesis" ∉ children_of d p) := by
  constructor <;> intro p
  · unfold children_of
    cases hf : d.children_mapping.find? (fun e => e.1 == p) with
    | none => exact List.nodup_nil
    | some e => exact hn e (List.mem_of_find?_eq_some hf)
  · unfold children_of
    cases hf : d.children_mapping.find? (fun e => e.1 == p) with
    | none => exact List.not_mem_nil _
    | some e => exact hgn e (List.mem_of_find?_eq_some hf)

/-- C2.  After every successful `add_block` of a fresh hash into a
well-formed state, the recomputed weights of the blue blocks, read in
weight order, are exactly 1, 2, 3, … with no gaps or repeats; the blue
blocks in weight order carry exactly the hashes the orderer produces, in
the orderer's order; genesis is blue with weight 1; and every red block
has weight exactly 0. -/
theorem claim_C2 (d : BlockDAG) (b : Block)
    (hwf : WF d)
    (hfresh : lookup_block d b.hash = none)
    (hok : (add_block d b).2 = none) :
    (∀ blk ∈ (add_block d b).1.blocks,
        blk.color = BlockColor.Red → blk.weight = 0)
    ∧ ((get_ordered_blue_blocks (add_block d b).1).map (fun x => x.weight)
        = List.range' 1 (get_ordered_blue_blocks (add_block d b).1).length)
    ∧ ((get_ordered_blue_blocks (add_block d b).1).map (fun x => x.hash)
        = ghostdag_sort (add_block d b).1)
    ∧ (∃ g, lookup_block (add_block d b).1 "genesis" = some g
        ∧ g.color = BlockColor.Blue ∧ g.weight = 1) := by
  obtain ⟨hnd, hg, hchn0, hchg0, hsize⟩ := hwf
  obtain ⟨hpar, hshape⟩ := add_block_ok_shape d b hok
  have hbg : b.hash ≠ "genesis" := by
    intro hh
    rw [hh] at hfresh
    rw [hfresh] at hg
    cases hg
  have hkeep := child_fold_keeps b.parent_hashes d.children_mapping b.hash
    hchn0 hchg0 hbg
  have hreset := child_reset_keeps (b.parent_hashes.foldl
    (fun cm p => child_insert cm p b.hash) d.children_mapping) b.hash hkeep.1 hkeep.2
  have hch := children_of_entries
    { d with blocks := insert_block d.blocks b,
             children_mapping := child_reset (b.parent_hashes.foldl
               (fun cm p => child_insert cm p b.hash) d.children_mapping) b.hash }
    hreset.1 hreset.2
  rw [hshape]
  apply update_ordering_blue_spec
  · exact d1_hash_nodup d b hnd hfresh
  · exact d1_genesis d b hg hfresh
  · exact hch.1
  · exact hch.2
  · show (insert_block d.blocks b).length + 1 ≤ 2 ^ 64 - 1
    rw [insert_block_fresh d.blocks b hfresh, List.length_append]
    show d.blocks.length + 1 + 1 ≤ 2 ^ 64 - 1
    omega

/-- Witness for C2 at a concrete input. -/
theorem claim_C2_witness :
    (∀ blk ∈ (add_block (BlockDAG.new 1) ( Block.mk' "b1" ["genesis"] [] 1)).1.blocks,
        blk.color = BlockColor.Red → blk.weight = 0)
    ∧ ((get_ordered_blue_blocks
          (add_block (BlockDAG.new 1) ( Block.mk' "b1" ["genesis"] [] 1)).1).map
            (fun x => x.weight)
        = List.range' 1 (get_ordered_blue_blocks
            (add_block (BlockDAG.new 1) ( Block.mk' "b1" ["genesis"] [] 1)).1).length)
    ∧ ((get_ordered_blue_blocks
          (add_block (BlockDAG.new 1) ( Block.mk' "b1" ["genesis"] [] 1)).1).map
            (fun x => x.hash)
        = ghostdag_sort (add_block (BlockDAG.new 1) ( Block.mk' "b1" ["genesis"] [] 1)).1)
    ∧ (∃ g, lookup_block
          (add_block (BlockDAG.new 1) ( Block.mk' "b1" ["genesis"] [] 1)).1 "genesis"
          = some g
        ∧ g.color = BlockColor.Blue ∧ g.weight = 1) :=
  claim_C2 (BlockDAG.new 1) ( Block.mk' "b1" ["genesis"] [] 1)
    ⟨by decide, by decide, by decide, by decide, by decide⟩
    (by decide) (by decide)
